import Mathlib

/-!
Shallow embedding of the teneo-agent orchestration core
(`teneo_agent.py`, `src/modules/task_parser.py`, `src/modules/run_analyzer.py`,
`src/modules/worker_spawner.py`).

Text is modelled as `List Char`.  Python `\s` (and `str.strip` / whitespace
tests) is modelled by the six ASCII whitespace characters, which is the exact
behaviour on ASCII input; all ledger texts appearing in the claims are ASCII.
Python floats in the analyzer are modelled by exact rational/integer
arithmetic (`(failed+timeout)/total > 0.3` becomes `10*(failed+timeout) >
3*total`), which agrees with IEEE double evaluation for all realistic counter
magnitudes.

`re.subn` with `re.MULTILINE` on the specific pattern
`^([\s]*-\s*)\[ \](\s*<escaped task>)$` is embedded by a specialised
leftmost, non-overlapping scan (`subnGo`): the pattern's quantifiers
`[\s]*`/`\s*` before the literals `-` and `[` are deterministic (maximal
whitespace run, since `-` and `[` are not whitespace), and the `\s*` of the
second group is resolved greedily (`findB` tries the longest whitespace run
first), exactly as the backtracking engine does.  `re.escape(task)` makes the
task text a literal (Python ≥3.7 escapes whitespace to mean the literal
character).  `^` holds at the start of the text and after each `'\n'`; `$`
holds at the end and before each `'\n'`.  The scan is structurally recursive
on a fuel argument; `pySubn` runs it with fuel equal to the text length,
which is always sufficient because every step consumes at least one
character (`subnGo_mono` below shows the fuel is irrelevant once sufficient).
-/

/-- Coerce a string literal to the `List Char` representation used throughout. -/
def str (s : String) : List Char := s.data

/-- Python `\s` on ASCII: space, tab, newline, carriage return, vertical tab, form feed. -/
def pyWS (c : Char) : Bool :=
  c = ' ' || c = '\t' || c = '\n' || c = '\r' || c = '\x0b' || c = '\x0c'

/-- Length of the maximal whitespace prefix (the deterministic extent of a
greedy `\s*` that is followed by a non-whitespace literal). -/
def wsCount : List Char → Nat
  | [] => 0
  | c :: cs => if pyWS c then wsCount cs + 1 else 0

/-- `$` in MULTILINE mode: end of text or just before a `'\n'`. -/
def eolAt : List Char → Bool
  | [] => true
  | c :: _ => c = '\n'

/-- Whether the last character of a chunk is a newline (used to decide whether
the position after a consumed match is a line start). -/
def lastIsNL (l : List Char) : Bool :=
  match l.getLast? with
  | some c => c = '\n'
  | none => false

/-- Python `content.split('\n')`. -/
def splitOnNL : List Char → List (List Char)
  | [] => [[]]
  | c :: cs =>
    if c = '\n' then [] :: splitOnNL cs
    else
      match splitOnNL cs with
      | l :: ls => (c :: l) :: ls
      | [] => [[c]]

/-- Join lines with `'\n'` (left inverse of `splitOnNL` on newline-free lines). -/
def joinNL : List (List Char) → List Char
  | [] => []
  | [l] => l
  | l :: ls => l ++ '\n' :: joinNL ls

/-- Python `str.strip()` on ASCII input. -/
def stripChars (l : List Char) : List Char :=
  ((l.dropWhile pyWS).reverse.dropWhile pyWS).reverse

/-- Python `enumerate(xs, n)`. -/
def enumFrom1 : Nat → List α → List (Nat × α)
  | _, [] => []
  | n, a :: as => (n, a) :: enumFrom1 (n + 1) as

/-- Python `sub in s` (substring containment). -/
def containsSub (sub : List Char) : List Char → Bool
  | [] => sub.isEmpty
  | c :: cs => sub.isPrefixOf (c :: cs) || containsSub sub cs

/-- Python `s.count(sub)` for non-empty `sub`: non-overlapping occurrences,
scanning left to right.  Structurally recursive on a fuel argument; `pyCount`
supplies fuel `s.length`, which is always sufficient. -/
def countSub (sub : List Char) : Nat → List Char → Nat
  | _, [] => 0
  | 0, _ :: _ => 0
  | fuel + 1, c :: cs =>
    if sub.isPrefixOf (c :: cs) then countSub sub fuel (cs.drop (sub.length - 1)) + 1
    else countSub sub fuel cs

/-- `s.count(sub)` with sufficient fuel. -/
def pyCount (sub s : List Char) : Nat := countSub sub s.length s

/-! ### Task parser (`task_parser.parse_tasks` and friends) -/

/-- A parsed task: `{'task': ..., 'completed': ..., 'line_num': ...}`. -/
structure TaskEntry where
  task : List Char
  completed : Bool
  line_num : Nat
deriving DecidableEq, Repr

/-- `re.match(r'^[\s]*-\s*\[([ xX])\]\s*(.+)$', line)` on a newline-free line:
returns the checkbox character and group 2.  The greedy `\s*` before `(.+)`
backtracks exactly one step when the remainder is all whitespace (so that
`.+` can take the final character). -/
def matchTaskLine (line : List Char) : Option (Char × List Char) :=
  let k1 := wsCount line
  match line.drop k1 with
  | '-' :: s2 =>
    let k2 := wsCount s2
    match s2.drop k2 with
    | '[' :: c :: ']' :: rest =>
      if c = ' ' || c = 'x' || c = 'X' then
        let m := wsCount rest
        if m < rest.length then some (c, rest.drop m)
        else if 0 < m then some (c, rest.drop (m - 1))
        else none
      else none
    | _ => none
  | _ => none

/-- `task_parser.parse_tasks` on file content (the file-exists check lives in
`mark_task_complete_file`-style wrappers; parsing itself is pure). -/
def parse_tasks (content : List Char) : List TaskEntry :=
  (enumFrom1 1 (splitOnNL content)).filterMap fun p =>
    match matchTaskLine p.2 with
    | some (c, g2) => some ⟨stripChars g2, c = 'x' || c = 'X', p.1⟩
    | none => none

/-- `task_parser.get_incomplete_tasks` on content. -/
def get_incomplete_tasks (content : List Char) : List TaskEntry :=
  (parse_tasks content).filter fun t => !t.completed

/-- `task_parser.count_tasks` on content:
literal substring counts of `- [x]`/`- [X]` and `- [ ]`. -/
def count_tasks (content : List Char) : Nat × Nat :=
  (pyCount (str "- [x]") content + pyCount (str "- [X]") content,
   pyCount (str "- [ ]") content)

/-! ### `mark_task_complete`: the `re.subn` scan -/

/-- Greedy resolution of `(\s*<task>)$` starting at `s`: try the whitespace
run length `k` from the maximum down to `0`; succeed at the first `k` where
the literal task text follows and ends at `$`. -/
def findB (s t : List Char) : Nat → Option Nat
  | 0 => if t.isPrefixOf s && eolAt (s.drop t.length) then some 0 else none
  | k + 1 =>
    if t.isPrefixOf (s.drop (k + 1)) && eolAt (s.drop (k + 1 + t.length)) then some (k + 1)
    else findB s t k

/-- Attempt the pattern `^([\s]*-\s*)\[ \](\s*<t>)$` at a line start.
On success, return the replacement text (`\1[x]\2`) and the number of
characters consumed by the match. -/
def matchAt (s t : List Char) : Option (List Char × Nat) :=
  let k1 := wsCount s
  match s.drop k1 with
  | '-' :: s2 =>
    let k2 := wsCount s2
    match s2.drop k2 with
    | '[' :: ' ' :: ']' :: s4 =>
      match findB s4 t (wsCount s4) with
      | some k3 =>
        some (s.take k1 ++ '-' :: (s2.take k2 ++ '[' :: 'x' :: ']' :: (s4.take k3 ++ t)),
              k1 + 1 + (k2 + (3 + (k3 + t.length))))
      | none => none
    | _ => none
  | _ => none

/-- The `re.subn` scan: at each line start attempt `matchAt`; on success emit
the replacement, skip the consumed characters and continue (non-overlapping);
otherwise copy one character.  `bol` says whether the current position is a
line start (`^`). -/
def subnGo (t : List Char) : Nat → List Char → Bool → List Char × Nat
  | _, [], _ => ([], 0)
  | 0, _ :: _, _ => ([], 0)
  | fuel + 1, c :: cs, bol =>
    if bol then
      match matchAt (c :: cs) t with
      | some (repl, n) =>
        let r := subnGo t fuel ((c :: cs).drop n) (lastIsNL ((c :: cs).take n))
        (repl ++ r.1, r.2 + 1)
      | none =>
        let r := subnGo t fuel cs (c = '\n')
        (c :: r.1, r.2)
    else
      let r := subnGo t fuel cs (c = '\n')
      (c :: r.1, r.2)

/-- `re.subn(pattern, r'\1[x]\2', content, flags=re.MULTILINE)`:
the scan with sufficient fuel, started at a line start. -/
def pySubn (content t : List Char) : List Char × Nat :=
  subnGo t content.length content true

/-- `task_parser.mark_task_complete` restricted to its text transformation:
the pair (content after the call, returned boolean).  The file is rewritten
only when the substitution count is positive. -/
def markContent (content t : List Char) : List Char × Bool :=
  let r := pySubn content t
  if 0 < r.2 then (r.1, true) else (content, false)

/-- `task_parser.mark_task_complete` at the file level: `none` models a
missing file (the function returns `False` without touching anything);
otherwise the content is transformed by `markContent`. -/
def mark_task_complete_file (st : Option (List Char)) (t : List Char) :
    Option (List Char) × Bool :=
  match st with
  | none => (none, false)
  | some content =>
    let r := markContent content t
    (some r.1, r.2)

/-! ### Worker outcome classifier (`run_analyzer._analyze_worker`) and the
scheduler's wait predicate (`is_worker_complete` / `wait_for_workers`) -/

/-- A worker output directory snapshot: size of `HANDOFF.md` if it exists,
and content of `LOG.md` if it exists.  (`WORKER.md` only feeds the task-name
extraction, which no claim concerns.) -/
structure WorkerDir where
  handoff : Option Nat
  logContent : Option (List Char)
deriving DecidableEq, Repr

/-- The classifier's outcome. -/
inductive WStatus where
  | complete
  | failed
  | timeout
deriving DecidableEq, Repr

/-- The status computation of `_analyze_worker`: handoff present and larger
than 50 bytes wins; otherwise scan the lowered log for `"error"`/`"failed"`;
otherwise `timeout`. -/
def analyzeWorker (d : WorkerDir) : WStatus :=
  if (match d.handoff with | some sz => decide (50 < sz) | none => false) then .complete
  else
    match d.logContent with
    | some lc =>
      let lower := lc.map Char.toLower
      if containsSub (str "error") lower || containsSub (str "failed") lower then .failed
      else .timeout
    | none => .timeout

/-- `is_worker_complete`: the predicate polled by `wait_for_workers` —
`HANDOFF.md` exists (no size or content condition). -/
def isWorkerComplete (d : WorkerDir) : Bool := d.handoff.isSome

/-- One poll of `wait_for_workers` over the lanes of a round: the count of
lanes whose predicate holds equals the number of lanes. -/
def pollAllResolved (lanes : List WorkerDir) : Bool :=
  (lanes.countP fun d => isWorkerComplete d) = lanes.length

/-! ### Pattern detector (`run_analyzer._detect_patterns` /
`_generate_improvements`) -/

/-- The aggregate metrics fed to `_detect_patterns`.  `tasks_completed` is
`none` when `TASKS.md` was absent (the dict key is missing and
`metrics.get("tasks_completed", 0)` defaults to `0`).  `duration_minutes` is
an exact rational standing for the float. -/
structure Metrics where
  total_workers : Nat
  completed : Nat
  failed : Nat
  timeout : Nat
  tasks_completed : Option Nat
  duration_minutes : ℚ
deriving DecidableEq

/-- Pattern kinds emitted by the detector. -/
inductive PType where
  | high_failure_rate
  | tasks_not_marked
  | shallow_work
deriving DecidableEq, Repr

/-- Pattern severities. -/
inductive Severity where
  | high
  | medium
deriving DecidableEq, Repr

/-- A detected pattern.  The `description`/`recommendation` strings of the
source are fixed English text per kind and carry no claim-relevant data, so
they are elided here. -/
structure Pattern where
  ptype : PType
  severity : Severity
deriving DecidableEq, Repr

/-- Improvement priorities. -/
inductive Priority where
  | P0
  | P1
deriving DecidableEq, Repr

/-- An improvement (title/action strings elided, as for `Pattern`). -/
structure Improvement where
  priority : Priority
deriving DecidableEq, Repr

/-- `_detect_patterns`: three independent rules, each appending its pattern
when its condition holds.  The float comparison
`(failed + timeout) / total_workers > 0.3` (guarded by `total_workers > 0`)
is the exact inequality `10*(failed+timeout) > 3*total_workers`. -/
def detectPatterns (m : Metrics) : List Pattern :=
  (if 0 < m.total_workers ∧ 3 * m.total_workers < 10 * (m.failed + m.timeout)
   then [⟨.high_failure_rate, .high⟩] else [])
  ++ (if m.tasks_completed.getD 0 = 0 ∧ 0 < m.completed
      then [⟨.tasks_not_marked, .medium⟩] else [])
  ++ (if 2 < m.completed ∧ m.duration_minutes < 2
      then [⟨.shallow_work, .medium⟩] else [])

/-- `_generate_improvements`: one improvement per pattern, `P0` exactly for
severity `high`. -/
def generateImprovements (ps : List Pattern) : List Improvement :=
  ps.map fun p => ⟨if p.severity = Severity.high then .P0 else .P1⟩

/-! ### Scheduler (`run_continuous`): validation, lane assignment, phases -/

/-- Project state relevant to `validate_project`: presence of `CLAUDE.md`
and the content of `TASKS.md` when present. -/
structure Project where
  has_claude_md : Bool
  tasks_file : Option (List Char)
deriving DecidableEq

/-- `validate_project(...)["ready"]`: no issues, i.e. `CLAUDE.md` exists and
`TASKS.md` exists with at least one literal `- [ ]` occurrence. -/
def validateReady (p : Project) : Bool :=
  p.has_claude_md &&
    match p.tasks_file with
    | some c => 0 < pyCount (str "- [ ]") c
    | none => false

/-- One round's lane assignments in `run_continuous`:
`tasks_this_round = get_incomplete_tasks(tasks_file)[:num_lanes]` zipped with
`enumerate(..., 1)` — the pair is `(lane, task)`. -/
def roundAssignments (numLanes : Nat) (content : List Char) : List (Nat × TaskEntry) :=
  enumFrom1 1 ((get_incomplete_tasks content).take numLanes)

/-- The EXECUTE loop of `run_continuous`, as the list of rounds that actually
run with their assignments.  `ledger n` is the `TASKS.md` content the
scheduler re-reads at the start of round `n` (workers mutate it externally
between rounds); `fuel` is the number of remaining rounds
(`max_rounds - n + 1`).  A round with no incomplete tasks does not run and
the loop stops (the `break` / success exit). -/
def execTrace (numLanes : Nat) (ledger : Nat → List Char) : Nat → Nat → List (Nat × List (Nat × TaskEntry))
  | 0, _ => []
  | fuel + 1, n =>
    if get_incomplete_tasks (ledger n) = [] then []
    else (n, roundAssignments numLanes (ledger n)) :: execTrace numLanes ledger fuel (n + 1)

/-- Phase-level events of one `run_continuous` invocation. -/
inductive Ev where
  | setup
  | round (n : Nat)
  | analyze
deriving DecidableEq, Repr

/-- The phase trace of `run_continuous`: `p0` is the project state at entry,
`p1` the state after the setup worker ran (an external effect, hence a
parameter).  If validation fails and re-validation after setup still fails,
the function returns early (no EXECUTE rounds, no ANALYZE); otherwise the
EXECUTE loop runs rounds `1..maxRounds` with early exit, and ANALYZE follows
unconditionally. -/
def runContinuousTrace (p0 p1 : Project) (numLanes maxRounds : Nat)
    (ledger : Nat → List Char) : List Ev :=
  if validateReady p0 then
    (execTrace numLanes ledger maxRounds 1).map (fun r => Ev.round r.1) ++ [Ev.analyze]
  else
    Ev.setup ::
      (if validateReady p1 then
        (execTrace numLanes ledger maxRounds 1).map (fun r => Ev.round r.1) ++ [Ev.analyze]
      else [])

/-! ### Line-level vocabulary for the `mark_task_complete` theorems

These definitions are not part of the source embedding; they name the shapes
of ledger lines used to characterise what the `re.subn` scan does to a
well-formed ledger. -/

/-- A line consisting entirely of whitespace (possibly empty). -/
def allWS (l : List Char) : Bool := l.all pyWS

/-- The line-local form of the mark pattern: if `l` is
`ws* '-' ws* "[ ]" ws* t` exactly, return the line with the checkbox
replaced by `[x]`; otherwise `none`.  (For `t` nonempty, newline-free and
not starting with whitespace this is exactly when `matchAt` succeeds on the
line.) -/
def lineFlip (t l : List Char) : Option (List Char) :=
  let k1 := wsCount l
  match l.drop k1 with
  | '-' :: s2 =>
    let k2 := wsCount s2
    match s2.drop k2 with
    | '[' :: ' ' :: ']' :: s4 =>
      if s4.drop (wsCount s4) = t then
        some (l.take k1 ++ '-' :: (s2.take k2 ++ '[' :: 'x' :: ']' :: s4))
      else none
    | _ => none
  | _ => none

/-- `lineFlip` with identity fallback. -/
def lineFlipD (t l : List Char) : List Char := (lineFlip t l).getD l

/-- A line on which the scan can neither match nor continue into the next
line: its first non-whitespace character is not `'-'`; or after `'-'` and
whitespace the line continues with something other than an unchecked
checkbox; or after `"[ ]"` and whitespace there is trailing content that
differs from `t`. -/
def inertLine (t l : List Char) : Bool :=
  match l.drop (wsCount l) with
  | [] => false
  | c :: s2 =>
    if c = '-' then
      match s2.drop (wsCount s2) with
      | [] => false
      | '[' :: ' ' :: ']' :: s4 =>
        decide (s4.drop (wsCount s4) ≠ [] ∧ s4.drop (wsCount s4) ≠ t)
      | _ :: _ => true
    else true

/-- A ledger line the characterisation covers: newline-free and either all
whitespace, inert, or an unchecked task line for `t`. -/
def goodLine (t l : List Char) : Bool :=
  l.all (fun c => c ≠ '\n') &&
    (allWS l || inertLine t l || (lineFlip t l).isSome)

/-- A plain single-line task text: nonempty, newline-free, not starting with
whitespace. -/
def goodTask (t : List Char) : Bool :=
  match t with
  | [] => false
  | c :: _ => !pyWS c && t.all (fun c => c ≠ '\n')

/-! ## Helper lemmas: whitespace runs -/

theorem wsCount_le_length (l : List Char) : wsCount l ≤ l.length := by
  induction l with
  | nil => simp [wsCount]
  | cons c cs ih =>
    simp only [wsCount, List.length_cons]
    split
    · omega
    · omega

theorem wsCount_append (l r : List Char) (h : l.drop (wsCount l) ≠ []) :
    wsCount (l ++ r) = wsCount l := by
  induction l with
  | nil => simp [wsCount, List.drop] at h
  | cons c cs ih =>
    simp only [wsCount, List.cons_append]
    by_cases hc : pyWS c
    · simp only [hc, if_true]
      simp only [wsCount, hc, if_true] at h
      rw [Nat.add_comm (wsCount cs) 1, ← List.drop_drop, List.drop_one, List.tail_cons] at h
      exact congrArg (· + 1) (ih h)
    · simp [hc]

theorem drop_wsCount_cons_not_ws (l : List Char) (c : Char) (s : List Char)
    (h : l.drop (wsCount l) = c :: s) : pyWS c = false := by
  induction l with
  | nil => simp at h
  | cons a as ih =>
    simp only [wsCount] at h
    by_cases ha : pyWS a
    · simp only [ha, if_true] at h
      rw [Nat.add_comm (wsCount as) 1, ← List.drop_drop, List.drop_one, List.tail_cons] at h
      exact ih h
    · simp only [ha, if_false, List.drop_zero] at h
      cases h
      simpa using ha

theorem drop_lt_wsCount_ws (l : List Char) (k : Nat) (h : k < wsCount l) :
    ∃ c s, l.drop k = c :: s ∧ pyWS c = true := by
  induction l generalizing k with
  | nil => simp [wsCount] at h
  | cons a as ih =>
    simp only [wsCount] at h
    by_cases ha : pyWS a
    · simp only [ha, if_true] at h
      cases k with
      | zero => exact ⟨a, as, rfl, ha⟩
      | succ k => exact ih k (by omega)
    · simp [ha] at h

theorem wsCount_allWS (l : List Char) (h : allWS l = true) : wsCount l = l.length := by
  induction l with
  | nil => simp [wsCount]
  | cons c cs ih =>
    simp only [allWS, List.all_cons, Bool.and_eq_true] at h
    simp only [wsCount, h.1, if_true, List.length_cons]
    have := ih (by simpa [allWS] using h.2)
    omega

theorem wsCount_allWS_append (l r : List Char) (h : allWS l = true) :
    wsCount (l ++ r) = l.length + wsCount r := by
  induction l with
  | nil => simp
  | cons c cs ih =>
    simp only [allWS, List.all_cons, Bool.and_eq_true] at h
    simp only [List.cons_append, wsCount, h.1, if_true, List.length_cons]
    have h2 : wsCount (cs.append r) = cs.length + wsCount r := ih (by simpa [allWS] using h.2)
    omega

theorem drop_wsCount_append (l r : List Char) (h : l.drop (wsCount l) ≠ []) :
    (l ++ r).drop (wsCount (l ++ r)) = l.drop (wsCount l) ++ r := by
  rw [wsCount_append l r h, List.drop_append_of_le_length (wsCount_le_length l)]

theorem take_wsCount_append (l r : List Char) (h : l.drop (wsCount l) ≠ []) :
    (l ++ r).take (wsCount (l ++ r)) = l.take (wsCount l) := by
  rw [wsCount_append l r h, List.take_append_of_le_length (wsCount_le_length l)]

/-! ## Helper lemmas: `findB` -/

theorem findB_some_of (s t : List Char) (k : Nat)
    (h1 : t.isPrefixOf (s.drop k) = true) (h2 : eolAt (s.drop (k + t.length)) = true) :
    findB s t k = some k := by
  cases k with
  | zero =>
    simp only [List.drop_zero] at h1
    simp only [Nat.zero_add] at h2
    simp [findB, h1, h2]
  | succ k =>
    simp [findB, h1, h2]

theorem findB_none_of (s t : List Char) (k : Nat)
    (h : ∀ j, j ≤ k → ¬(t.isPrefixOf (s.drop j) = true ∧ eolAt (s.drop (j + t.length)) = true)) :
    findB s t k = none := by
  induction k with
  | zero =>
    have := h 0 (by omega)
    simp only [List.drop_zero] at this
    simp only [findB, Bool.and_eq_true, ite_eq_right_iff]
    intro hc
    exact absurd ⟨hc.1, by simpa using hc.2⟩ this
  | succ k ih =>
    have hk := h (k + 1) (by omega)
    simp only [findB, Bool.and_eq_true]
    rw [if_neg]
    · exact ih fun j hj => h j (by omega)
    · intro hc
      exact hk ⟨hc.1, hc.2⟩

theorem findB_some_inv (s t : List Char) (k : Nat) (j : Nat) (h : findB s t k = some j) :
    j ≤ k ∧ t.isPrefixOf (s.drop j) = true ∧ eolAt (s.drop (j + t.length)) = true := by
  induction k with
  | zero =>
    simp only [findB] at h
    split at h
    · cases h
      next hc => simp only [List.drop_zero] at hc ⊢; exact ⟨le_refl _, by simpa using hc⟩
    · cases h
  | succ k ih =>
    simp only [findB] at h
    split at h
    · cases h
      next hc =>
        simp only [Bool.and_eq_true] at hc
        exact ⟨le_refl _, hc.1, hc.2⟩
    · have := ih h
      exact ⟨by omega, this.2⟩

/-! ## Helper lemmas: `matchAt` on well-formed lines -/

theorem lineFlip_some_inv (t l fl : List Char) (h : lineFlip t l = some fl) :
    ∃ s2 s4,
      l.drop (wsCount l) = '-' :: s2 ∧
      s2.drop (wsCount s2) = '[' :: ' ' :: ']' :: s4 ∧
      s4.drop (wsCount s4) = t ∧
      fl = l.take (wsCount l) ++ '-' :: (s2.take (wsCount s2) ++ '[' :: 'x' :: ']' :: s4) := by
  simp only [lineFlip] at h
  split at h
  · next s2 e1 =>
    split at h
    · next s4 e2 =>
      split at h
      · next e3 =>
        cases h
        exact ⟨s2, s4, e1, e2, e3, rfl⟩
      · cases h
    · cases h
  · cases h

theorem matchAt_flip (t l fl rest : List Char) (ht : t ≠ [])
    (hrest : rest = [] ∨ ∃ r, rest = '\n' :: r)
    (h : lineFlip t l = some fl) :
    matchAt (l ++ rest) t = some (fl, l.length) := by
  obtain ⟨s2, s4, e1, e2, e3, e4⟩ := lineFlip_some_inv t l fl h
  have h1ne : l.drop (wsCount l) ≠ [] := by rw [e1]; simp
  have h2ne : s2.drop (wsCount s2) ≠ [] := by rw [e2]; simp
  have h4ne : s4.drop (wsCount s4) ≠ [] := by rw [e3]; exact ht
  have d1 : (l ++ rest).drop (wsCount (l ++ rest)) = '-' :: (s2 ++ rest) := by
    rw [drop_wsCount_append l rest h1ne, e1]; rfl
  have d2 : (s2 ++ rest).drop (wsCount (s2 ++ rest)) = '[' :: ' ' :: ']' :: (s4 ++ rest) := by
    rw [drop_wsCount_append s2 rest h2ne, e2]; rfl
  have hlen4 : s4.length = wsCount s4 + t.length := by
    conv_lhs => rw [← List.take_append_drop (wsCount s4) s4]
    rw [e3]
    simp [List.length_take, Nat.min_eq_left (wsCount_le_length s4)]
  have hfind : findB (s4 ++ rest) t (wsCount (s4 ++ rest)) = some (wsCount s4) := by
    rw [wsCount_append s4 rest h4ne]
    apply findB_some_of
    · rw [List.drop_append_of_le_length (wsCount_le_length s4), e3]
      exact List.isPrefixOf_iff_prefix.mpr (List.prefix_append t rest)
    · have hd : (s4 ++ rest).drop (wsCount s4 + t.length) = rest := by
        rw [← hlen4]
        exact List.drop_left s4 rest
      rw [hd]
      rcases hrest with h | ⟨r, h⟩ <;> simp [h, eolAt]
  have hlen2 : s2.length = wsCount s2 + 3 + s4.length := by
    have := congrArg List.length e2
    simp only [List.length_drop, List.length_cons] at this
    have := wsCount_le_length s2
    omega
  have hlen1 : l.length = wsCount l + 1 + s2.length := by
    have := congrArg List.length e1
    simp only [List.length_drop, List.length_cons] at this
    have := wsCount_le_length l
    omega
  have t1 : (l ++ rest).take (wsCount (l ++ rest)) = l.take (wsCount l) :=
    take_wsCount_append l rest h1ne
  have t2 : (s2 ++ rest).take (wsCount (s2 ++ rest)) = s2.take (wsCount s2) :=
    take_wsCount_append s2 rest h2ne
  have t4 : (s4 ++ rest).take (wsCount s4) = s4.take (wsCount s4) :=
    List.take_append_of_le_length (wsCount_le_length s4)
  have t4' : s4.take (wsCount s4) ++ t = s4 := by
    conv_rhs => rw [← List.take_append_drop (wsCount s4) s4, e3]
  simp only [matchAt, d1, d2, hfind, t1, t2, t4, t4', e4, Option.some.injEq, Prod.mk.injEq,
    true_and]
  rw [wsCount_append l rest h1ne, wsCount_append s2 rest h2ne]
  omega

theorem matchAt_nil (t : List Char) : matchAt [] t = none := rfl

theorem matchAt_ws_cons (t : List Char) (w : Char) (s : List Char) (hw : pyWS w = true) :
    matchAt (w :: s) t = (matchAt s t).map fun p => (w :: p.1, p.2 + 1) := by
  have hws : wsCount (w :: s) = wsCount s + 1 := by simp [wsCount, hw]
  simp only [matchAt, hws]
  rw [show (w :: s).drop (wsCount s + 1) = s.drop (wsCount s) from rfl]
  rw [show (w :: s).take (wsCount s + 1) = w :: s.take (wsCount s) from rfl]
  split
  · next s2 heq =>
    split
    · next s4 heq2 =>
      cases hf : findB s4 t (wsCount s4) with
      | none => simp [hf]
      | some k3 =>
        simp only [hf, Option.map_some]
        refine congrArg some (Prod.ext rfl ?_)
        simp
        omega
    · simp
  · simp

theorem matchAt_ws_skip (t : List Char) (L rest : List Char) (h : allWS L = true) :
    matchAt (L ++ '\n' :: rest) t =
      (matchAt rest t).map fun p => (L ++ '\n' :: p.1, L.length + 1 + p.2) := by
  induction L with
  | nil =>
    rw [List.nil_append, matchAt_ws_cons t '\n' rest (by simp [pyWS])]
    cases matchAt rest t with
    | none => rfl
    | some p =>
      simp only [Option.map_some, List.nil_append, List.length_nil]
      exact congrArg some (Prod.ext rfl (by simp; omega))
  | cons w L ih =>
    simp only [allWS, List.all_cons, Bool.and_eq_true] at h
    rw [List.cons_append, matchAt_ws_cons t w (L ++ '\n' :: rest) h.1,
      ih (by simp [allWS, h.2])]
    cases matchAt rest t with
    | none => rfl
    | some p =>
      simp only [Option.map_some, Option.map_map]
      refine congrArg some (Prod.ext (by simp) ?_)
      simp only [Function.comp]
      simp
      omega

theorem matchAt_allWS_single (t L : List Char) (h : allWS L = true) :
    matchAt L t = none := by
  have hd : L.drop (wsCount L) = [] := by
    rw [wsCount_allWS L h]
    simp
  simp only [matchAt, hd]

theorem inertLine_inv (t l : List Char) (h : inertLine t l = true) :
    ∃ c s2, l.drop (wsCount l) = c :: s2 ∧
      (¬ c = '-' ∨
        (c = '-' ∧ ((∃ s4, s2.drop (wsCount s2) = '[' :: ' ' :: ']' :: s4 ∧
             s4.drop (wsCount s4) ≠ [] ∧ s4.drop (wsCount s4) ≠ t) ∨
           (∃ d s3, s2.drop (wsCount s2) = d :: s3 ∧
             ∀ s4, d :: s3 ≠ '[' :: ' ' :: ']' :: s4)))) := by
  simp only [inertLine] at h
  split at h
  · simp at h
  · next c s2 e1 =>
    refine ⟨c, s2, e1, ?_⟩
    split at h
    · next hc =>
      right
      refine ⟨hc, ?_⟩
      split at h
      · simp at h
      · next s4 e2 =>
        left
        exact ⟨s4, e2, of_decide_eq_true h⟩
      · next x d s3 e2 hpat =>
        right
        refine ⟨d, s3, hpat, ?_⟩
        intro s4 hcontra
        injection hcontra with hd hs3
        exact e2 s4 hd hs3
    · next hc => left; exact hc

theorem goodTask_inv (t : List Char) (h : goodTask t = true) :
    ∃ t0 t', t = t0 :: t' ∧ pyWS t0 = false ∧ t.all (fun c => c ≠ '\n') = true := by
  cases t with
  | nil => simp [goodTask] at h
  | cons c t' =>
    simp only [goodTask, Bool.and_eq_true, Bool.not_eq_true'] at h
    exact ⟨c, t', rfl, h.1, h.2⟩

theorem matchAt_inert (t l rest : List Char)
    (hgt : goodTask t = true)
    (hnl : l.all (fun c => c ≠ '\n') = true)
    (hrest : rest = [] ∨ ∃ r, rest = '\n' :: r)
    (hin : inertLine t l = true) :
    matchAt (l ++ rest) t = none := by
  obtain ⟨t0, t', ht, ht0, htnl⟩ := goodTask_inv t hgt
  obtain ⟨c, s2, e1, hcase⟩ := inertLine_inv t l hin
  have h1ne : l.drop (wsCount l) ≠ [] := by rw [e1]; simp
  have d1 : (l ++ rest).drop (wsCount (l ++ rest)) = c :: (s2 ++ rest) := by
    rw [drop_wsCount_append l rest h1ne, e1]; rfl
  simp only [List.all_eq_true, decide_eq_true_eq] at hnl
  rcases hcase with hc | ⟨hc, hsub⟩
  · simp only [matchAt, d1]
    split
    · next s2' heq => injection heq with h1 _; exact absurd h1 hc
    · rfl
  · subst hc
    rcases hsub with ⟨s4, e2, hu1, hu2⟩ | ⟨d, s3, e2, hnopat⟩
    · have h2ne : s2.drop (wsCount s2) ≠ [] := by rw [e2]; simp
      have d2 : (s2 ++ rest).drop (wsCount (s2 ++ rest)) = '[' :: ' ' :: ']' :: (s4 ++ rest) := by
        rw [drop_wsCount_append s2 rest h2ne, e2]; rfl
      have hmem : ∀ a, a ∈ s4 → a ∈ l := by
        intro a ha
        have m1 : a ∈ s2.drop (wsCount s2) := by rw [e2]; simp [ha]
        have m2 : a ∈ s2 := List.mem_of_mem_drop m1
        have m3 : a ∈ l.drop (wsCount l) := by rw [e1]; simp [m2]
        exact List.mem_of_mem_drop m3
      have hfind : findB (s4 ++ rest) t (wsCount (s4 ++ rest)) = none := by
        rw [wsCount_append s4 rest hu1]
        apply findB_none_of
        intro j hj hcon
        obtain ⟨hpre, heol⟩ := hcon
        rcases Nat.lt_or_ge j (wsCount s4) with hlt | hge
        · obtain ⟨w, sw, hdw, hws⟩ := drop_lt_wsCount_ws s4 j hlt
          have hdj : (s4 ++ rest).drop j = w :: (sw ++ rest) := by
            rw [List.drop_append_of_le_length
              (le_of_lt (lt_of_lt_of_le hlt (wsCount_le_length s4))), hdw]
            rfl
          rw [hdj] at hpre
          have hp := List.isPrefixOf_iff_prefix.mp hpre
          rw [ht, List.cons_prefix_cons] at hp
          rw [← hp.1] at hws
          rw [ht0] at hws
          exact Bool.noConfusion hws
        · have hj' : j = wsCount s4 := le_antisymm hj hge
          subst hj'
          have hdj : (s4 ++ rest).drop (wsCount s4) = s4.drop (wsCount s4) ++ rest :=
            List.drop_append_of_le_length (wsCount_le_length s4)
          rw [hdj] at hpre
          have heol' : eolAt ((s4.drop (wsCount s4) ++ rest).drop t.length) = true := by
            rw [← hdj, List.drop_drop]
            exact heol
          have hpre' : t <+: s4.drop (wsCount s4) ++ rest := List.isPrefixOf_iff_prefix.mp hpre
          rcases Nat.lt_trichotomy t.length (s4.drop (wsCount s4)).length with hlt | hleq | hgt2
          · have hd2 : (s4.drop (wsCount s4) ++ rest).drop t.length
                = (s4.drop (wsCount s4)).drop t.length ++ rest :=
              List.drop_append_of_le_length (le_of_lt hlt)
            rw [hd2] at heol'
            cases hud : (s4.drop (wsCount s4)).drop t.length with
            | nil =>
              have hlen : ((s4.drop (wsCount s4)).drop t.length).length = 0 := by
                rw [hud]; rfl
              rw [List.length_drop] at hlen
              omega
            | cons w ws =>
              rw [hud] at heol'
              have heolw : w = '\n' := by
                have he : eolAt ((w :: ws) ++ rest) = decide (w = '\n') := rfl
                rw [he] at heol'
                exact of_decide_eq_true heol'
              have hwmem : w ∈ l := by
                apply hmem
                apply List.mem_of_mem_drop (n := wsCount s4)
                apply List.mem_of_mem_drop (n := t.length)
                rw [hud]
                exact List.mem_cons_self w ws
              exact hnl w hwmem heolw
          · have htu : t <+: s4.drop (wsCount s4) :=
              List.prefix_of_prefix_length_le hpre'
                (List.prefix_append (s4.drop (wsCount s4)) rest) (le_of_eq hleq)
            exact hu2 (htu.eq_of_length hleq).symm
          · have hut : s4.drop (wsCount s4) <+: t :=
              List.prefix_of_prefix_length_le
                (List.prefix_append (s4.drop (wsCount s4)) rest) hpre' (le_of_lt hgt2)
            have htdecomp : t = s4.drop (wsCount s4) ++ t.drop (s4.drop (wsCount s4)).length := by
              conv_lhs => rw [← List.take_append_drop (s4.drop (wsCount s4)).length t]
              rw [← List.prefix_iff_eq_take.mp hut]
            have hvpre : t.drop (s4.drop (wsCount s4)).length <+: rest := by
              rw [htdecomp] at hpre'
              exact (List.prefix_append_right_inj (s4.drop (wsCount s4))).mp hpre'
            have hvne : t.drop (s4.drop (wsCount s4)).length ≠ [] := by
              intro hv
              have hlen : (t.drop (s4.drop (wsCount s4)).length).length = 0 := by
                rw [hv]; rfl
              rw [List.length_drop] at hlen
              omega
            rcases hrest with hre | ⟨r, hre⟩
            · rw [hre] at hvpre
              exact hvne (List.prefix_nil.mp hvpre)
            · rw [hre] at hvpre
              cases hv : t.drop (s4.drop (wsCount s4)).length with
              | nil => exact hvne hv
              | cons v0 v' =>
                rw [hv] at hvpre
                rw [List.cons_prefix_cons] at hvpre
                have hmemnl : '\n' ∈ t := by
                  rw [htdecomp, hv, ← hvpre.1]
                  exact List.mem_append_right _ (List.mem_cons_self v0 v')
                simp only [List.all_eq_true, decide_eq_true_eq] at htnl
                exact htnl '\n' hmemnl rfl
      simp only [matchAt, d1, d2, hfind]
    · have h2ne : s2.drop (wsCount s2) ≠ [] := by rw [e2]; simp
      have d2 : (s2 ++ rest).drop (wsCount (s2 ++ rest)) = d :: (s3 ++ rest) := by
        rw [drop_wsCount_append s2 rest h2ne, e2]; rfl
      simp only [matchAt, d1, d2]
      split
      · next s4' heq =>
        exfalso
        injection heq with hd htail
        cases s3 with
        | nil =>
          simp only [List.nil_append] at htail
          rcases hrest with hre | ⟨r, hre⟩
          · subst hre; exact absurd htail (by simp)
          · subst hre; injection htail with h2 _; exact absurd h2 (by decide)
        | cons e s3' =>
          cases s3' with
          | nil =>
            simp only [List.cons_append, List.nil_append] at htail
            injection htail with h2 htail2
            rcases hrest with hre | ⟨r, hre⟩
            · subst hre; exact absurd htail2 (by simp)
            · subst hre; injection htail2 with h3 _; exact absurd h3 (by decide)
          | cons f s3'' =>
            simp only [List.cons_append] at htail
            injection htail with h2 htail2
            injection htail2 with h3 htail3
            exact hnopat s3'' (by rw [hd, h2, h3])
      · rfl

/-! ## Helper lemmas: the scan `subnGo` -/

theorem matchAt_some_inv (s t : List Char) (r : List Char) (n : Nat)
    (h : matchAt s t = some (r, n)) : 1 ≤ n ∧ n ≤ s.length := by
  simp only [matchAt] at h
  split at h
  · next s2 e1 =>
    split at h
    · next s4 e2 =>
      cases hf : findB s4 t (wsCount s4) with
      | none => rw [hf] at h; cases h
      | some k3 =>
        rw [hf] at h
        obtain ⟨hk3, hpre, -⟩ := findB_some_inv s4 t (wsCount s4) k3 hf
        have hlen4 : t.length ≤ s4.length - k3 := by
          have := (List.isPrefixOf_iff_prefix.mp hpre).length_le
          simpa using this
        have hk3' : k3 ≤ s4.length := le_trans hk3 (wsCount_le_length s4)
        have hlen2 : s2.length = wsCount s2 + 3 + s4.length := by
          have := congrArg List.length e2
          simp only [List.length_drop, List.length_cons] at this
          have := wsCount_le_length s2
          omega
        have hlen1 : s.length = wsCount s + 1 + s2.length := by
          have := congrArg List.length e1
          simp only [List.length_drop, List.length_cons] at this
          have := wsCount_le_length s
          omega
        cases h
        omega
    · cases h
  · cases h

theorem subnGo_nil_eq (t : List Char) (f : Nat) (bol : Bool) :
    subnGo t f [] bol = ([], 0) := by
  cases f <;> rfl

theorem subnGo_cons_true (t : List Char) (c : Char) (cs : List Char) (f : Nat) :
    subnGo t (f + 1) (c :: cs) true
      = match matchAt (c :: cs) t with
        | some (repl, n) =>
          (repl ++ (subnGo t f ((c :: cs).drop n) (lastIsNL ((c :: cs).take n))).1,
           (subnGo t f ((c :: cs).drop n) (lastIsNL ((c :: cs).take n))).2 + 1)
        | none =>
          (c :: (subnGo t f cs (decide (c = '\n'))).1,
           (subnGo t f cs (decide (c = '\n'))).2) := by
  rfl

theorem subnGo_cons_true_some (t : List Char) (c : Char) (cs : List Char) (f : Nat)
    (repl : List Char) (n : Nat) (hm : matchAt (c :: cs) t = some (repl, n)) :
    subnGo t (f + 1) (c :: cs) true
      = (repl ++ (subnGo t f ((c :: cs).drop n) (lastIsNL ((c :: cs).take n))).1,
         (subnGo t f ((c :: cs).drop n) (lastIsNL ((c :: cs).take n))).2 + 1) := by
  rw [subnGo_cons_true, hm]

theorem subnGo_cons_true_none (t : List Char) (c : Char) (cs : List Char) (f : Nat)
    (hm : matchAt (c :: cs) t = none) :
    subnGo t (f + 1) (c :: cs) true
      = (c :: (subnGo t f cs (decide (c = '\n'))).1,
         (subnGo t f cs (decide (c = '\n'))).2) := by
  rw [subnGo_cons_true, hm]

theorem subnGo_cons_false (t : List Char) (c : Char) (cs : List Char) (f : Nat) :
    subnGo t (f + 1) (c :: cs) false
      = (c :: (subnGo t f cs (decide (c = '\n'))).1,
         (subnGo t f cs (decide (c = '\n'))).2) := by
  rfl

theorem subnGo_fuel_irrel (t : List Char) :
    ∀ n (s : List Char), s.length ≤ n → ∀ f1 f2 bol, s.length ≤ f1 → s.length ≤ f2 →
      subnGo t f1 s bol = subnGo t f2 s bol := by
  intro n
  induction n with
  | zero =>
    intro s hs f1 f2 bol _ _
    have : s = [] := List.length_eq_zero.mp (le_antisymm hs (Nat.zero_le _))
    subst this
    rw [subnGo_nil_eq, subnGo_nil_eq]
  | succ n ih =>
    intro s hs f1 f2 bol h1 h2
    cases s with
    | nil => rw [subnGo_nil_eq, subnGo_nil_eq]
    | cons c cs =>
      simp only [List.length_cons] at hs h1 h2
      cases f1 with
      | zero => omega
      | succ a =>
        cases f2 with
        | zero => omega
        | succ b =>
          cases bol with
          | false =>
            rw [subnGo_cons_false, subnGo_cons_false,
              ih cs (by omega) a b (decide (c = '\n')) (by omega) (by omega)]
          | true =>
            cases hm : matchAt (c :: cs) t with
            | none =>
              rw [subnGo_cons_true_none t c cs a hm, subnGo_cons_true_none t c cs b hm,
                ih cs (by omega) a b (decide (c = '\n')) (by omega) (by omega)]
            | some p =>
              obtain ⟨r, nn⟩ := p
              obtain ⟨hn1, hn2⟩ := matchAt_some_inv (c :: cs) t r nn hm
              simp only [List.length_cons] at hn2
              have hdl : ((c :: cs).drop nn).length = cs.length + 1 - nn := by
                simp
              rw [subnGo_cons_true_some t c cs a r nn hm, subnGo_cons_true_some t c cs b r nn hm,
                ih ((c :: cs).drop nn) (by omega) a b
                  (lastIsNL ((c :: cs).take nn)) (by omega) (by omega)]

theorem subnGo_eq_exact (t : List Char) (f : Nat) (s : List Char) (bol : Bool)
    (h : s.length ≤ f) : subnGo t f s bol = subnGo t s.length s bol :=
  subnGo_fuel_irrel t s.length s le_rfl f s.length bol h le_rfl

theorem lastIsNL_of_ne (l : List Char) (hne : l ≠ []) (h : ∀ c ∈ l, c ≠ '\n') :
    lastIsNL l = false := by
  unfold lastIsNL
  rw [List.getLast?_eq_getLast l hne]
  simp only [decide_eq_false_iff_not]
  exact h _ (List.getLast_mem hne)

theorem subnGo_walk (t : List Char) :
    ∀ (l rest : List Char), (∀ c ∈ l, c ≠ '\n') →
      subnGo t (l ++ rest).length (l ++ rest) false
        = (l ++ (subnGo t rest.length rest false).1, (subnGo t rest.length rest false).2) := by
  intro l
  induction l with
  | nil => intro rest _; simp
  | cons c cs ih =>
    intro rest h
    have hc : decide (c = '\n') = false :=
      decide_eq_false (h c (List.mem_cons_self c cs))
    rw [List.cons_append]
    rw [show ((c :: (cs ++ rest)).length) = (cs ++ rest).length + 1 from rfl]
    rw [subnGo_cons_false, hc, ih rest (fun a ha => h a (List.mem_cons_of_mem c ha))]
    simp

theorem drop_append_len (x y : List Char) (n : Nat) :
    (x ++ y).drop (x.length + n) = y.drop n := by
  rw [← List.drop_drop, List.drop_left]

theorem take_append_len (x y : List Char) (n : Nat) :
    (x ++ y).take (x.length + n) = x ++ y.take n := by
  rw [List.take_append_eq_append_take]
  simp

theorem take_ne_nil_of (l : List Char) (n : Nat) (h1 : 1 ≤ n) (h2 : l ≠ []) :
    l.take n ≠ [] := by
  simp only [ne_eq, List.take_eq_nil_iff]
  exact fun h => h.elim (by omega) h2

theorem subnGo_nl_start (t rest : List Char) (f : Nat) (h : rest.length + 1 ≤ f + 1) :
    subnGo t (f + 1) ('\n' :: rest) false
      = ('\n' :: (subnGo t rest.length rest true).1, (subnGo t rest.length rest true).2) := by
  rw [subnGo_cons_false]
  rw [show (decide ('\n' = '\n')) = true from rfl]
  rw [subnGo_eq_exact t f rest true (by omega)]

theorem subnGo_line_flip (t l fl rest : List Char)
    (hgt : goodTask t = true)
    (hnl : ∀ c ∈ l, c ≠ '\n')
    (hfl : lineFlip t l = some fl) :
    subnGo t (l ++ '\n' :: rest).length (l ++ '\n' :: rest) true
      = (fl ++ '\n' :: (subnGo t rest.length rest true).1,
         (subnGo t rest.length rest true).2 + 1) := by
  have ht : t ≠ [] := by
    obtain ⟨t0, t', h, -, -⟩ := goodTask_inv t hgt
    rw [h]; simp
  cases l with
  | nil =>
    obtain ⟨s2, s4, e1, -, -, -⟩ := lineFlip_some_inv t [] fl hfl
    simp [wsCount] at e1
  | cons c cs =>
    have hm : matchAt (c :: (cs ++ '\n' :: rest)) t = some (fl, cs.length + 1) := by
      have := matchAt_flip t (c :: cs) fl ('\n' :: rest) ht (Or.inr ⟨rest, rfl⟩) hfl
      simpa using this
    rw [List.cons_append]
    rw [show ((c :: (cs ++ '\n' :: rest)).length) = (cs ++ '\n' :: rest).length + 1 from rfl]
    rw [subnGo_cons_true_some t c _ _ fl (cs.length + 1) hm]
    have hdrop : (c :: (cs ++ '\n' :: rest)).drop (cs.length + 1) = '\n' :: rest := by
      show (cs ++ '\n' :: rest).drop cs.length = '\n' :: rest
      exact List.drop_left cs _
    have htake : (c :: (cs ++ '\n' :: rest)).take (cs.length + 1) = c :: cs := by
      show c :: (cs ++ '\n' :: rest).take cs.length = c :: cs
      rw [List.take_left]
    rw [hdrop, htake, lastIsNL_of_ne (c :: cs) (by simp) hnl]
    rw [show ((cs ++ '\n' :: rest).length) = cs.length + (rest.length + 1) from by simp]
    rw [subnGo_eq_exact t _ ('\n' :: rest) false (by simp)]
    rw [show (('\n' :: rest).length) = rest.length + 1 from rfl]
    rw [subnGo_nl_start t rest rest.length (by omega)]

theorem subnGo_line_flip_last (t l fl : List Char)
    (hgt : goodTask t = true)
    (hfl : lineFlip t l = some fl) :
    subnGo t l.length l true = (fl, 1) := by
  have ht : t ≠ [] := by
    obtain ⟨t0, t', h, -, -⟩ := goodTask_inv t hgt
    rw [h]; simp
  cases l with
  | nil =>
    obtain ⟨s2, s4, e1, -, -, -⟩ := lineFlip_some_inv t [] fl hfl
    simp [wsCount] at e1
  | cons c cs =>
    have hm : matchAt (c :: cs) t = some (fl, cs.length + 1) := by
      have := matchAt_flip t (c :: cs) fl [] ht (Or.inl rfl) hfl
      simpa using this
    rw [show ((c :: cs).length) = cs.length + 1 from rfl]
    rw [subnGo_cons_true_some t c cs cs.length fl (cs.length + 1) hm]
    have hdrop : (c :: cs).drop (cs.length + 1) = [] := by
      apply List.drop_of_length_le
      simp
    rw [hdrop, subnGo_nil_eq]
    simp

theorem subnGo_line_inert (t l rest : List Char)
    (hgt : goodTask t = true)
    (hnlb : l.all (fun c => c ≠ '\n') = true)
    (hin : inertLine t l = true) :
    subnGo t (l ++ '\n' :: rest).length (l ++ '\n' :: rest) true
      = (l ++ '\n' :: (subnGo t rest.length rest true).1,
         (subnGo t rest.length rest true).2) := by
  have hm := matchAt_inert t l ('\n' :: rest) hgt hnlb (Or.inr ⟨rest, rfl⟩) hin
  have hnl : ∀ c ∈ l, c ≠ '\n' := by
    simpa only [List.all_eq_true, decide_eq_true_eq] using hnlb
  obtain ⟨c0, s2, e1, -⟩ := inertLine_inv t l hin
  have hlne : l ≠ [] := by
    intro h; subst h; simp [wsCount] at e1
  cases l with
  | nil => exact absurd rfl hlne
  | cons c cs =>
    have hm' : matchAt (c :: (cs ++ '\n' :: rest)) t = none := by simpa using hm
    have hc : decide (c = '\n') = false :=
      decide_eq_false (hnl c (List.mem_cons_self c cs))
    rw [List.cons_append]
    rw [show ((c :: (cs ++ '\n' :: rest)).length) = (cs ++ '\n' :: rest).length + 1 from rfl]
    rw [subnGo_cons_true_none t c _ _ hm', hc]
    rw [subnGo_walk t cs ('\n' :: rest) (fun a ha => hnl a (List.mem_cons_of_mem c ha))]
    rw [show (('\n' :: rest).length) = rest.length + 1 from rfl]
    rw [subnGo_nl_start t rest rest.length (by omega)]
    simp

theorem subnGo_line_inert_last (t l : List Char)
    (hgt : goodTask t = true)
    (hnlb : l.all (fun c => c ≠ '\n') = true)
    (hin : inertLine t l = true) :
    subnGo t l.length l true = (l, 0) := by
  have hm := matchAt_inert t l [] hgt hnlb (Or.inl rfl) hin
  rw [List.append_nil] at hm
  have hnl : ∀ c ∈ l, c ≠ '\n' := by
    simpa only [List.all_eq_true, decide_eq_true_eq] using hnlb
  obtain ⟨c0, s2, e1, -⟩ := inertLine_inv t l hin
  have hlne : l ≠ [] := by
    intro h; subst h; simp [wsCount] at e1
  cases l with
  | nil => exact absurd rfl hlne
  | cons c cs =>
    have hc : decide (c = '\n') = false :=
      decide_eq_false (hnl c (List.mem_cons_self c cs))
    rw [show ((c :: cs).length) = cs.length + 1 from rfl]
    rw [subnGo_cons_true_none t c cs cs.length hm, hc]
    have := subnGo_walk t cs [] (fun a ha => hnl a (List.mem_cons_of_mem c ha))
    rw [List.append_nil] at this
    rw [this, subnGo_nil_eq]
    simp

theorem lastIsNL_append_right (x y : List Char) (h : y ≠ []) :
    lastIsNL (x ++ y) = lastIsNL y := by
  unfold lastIsNL
  rw [List.getLast?_append_of_ne_nil x h]

theorem subnGo_line_ws (t l rest : List Char)
    (hgt : goodTask t = true)
    (hws : allWS l = true)
    (hnlb : l.all (fun c => c ≠ '\n') = true) :
    subnGo t (l ++ '\n' :: rest).length (l ++ '\n' :: rest) true
      = (l ++ '\n' :: (subnGo t rest.length rest true).1,
         (subnGo t rest.length rest true).2) := by
  have hnl : ∀ c ∈ l, c ≠ '\n' := by
    simpa only [List.all_eq_true, decide_eq_true_eq] using hnlb
  have hskip := matchAt_ws_skip t l rest hws
  cases hm : matchAt rest t with
  | none =>
    rw [hm] at hskip
    simp only [Option.map_none'] at hskip
    cases l with
    | nil =>
      simp only [List.nil_append]
      rw [show (('\n' :: rest).length) = rest.length + 1 from rfl]
      rw [subnGo_cons_true_none t '\n' rest rest.length (by simpa using hskip)]
      rw [show (decide ('\n' = '\n')) = true from rfl]
    | cons c cs =>
      have hm' : matchAt (c :: (cs ++ '\n' :: rest)) t = none := by simpa using hskip
      have hc : decide (c = '\n') = false :=
        decide_eq_false (hnl c (List.mem_cons_self c cs))
      rw [List.cons_append]
      rw [show ((c :: (cs ++ '\n' :: rest)).length) = (cs ++ '\n' :: rest).length + 1 from rfl]
      rw [subnGo_cons_true_none t c _ _ hm', hc]
      rw [subnGo_walk t cs ('\n' :: rest) (fun a ha => hnl a (List.mem_cons_of_mem c ha))]
      rw [show (('\n' :: rest).length) = rest.length + 1 from rfl]
      rw [subnGo_nl_start t rest rest.length (by omega)]
      simp
  | some p =>
    obtain ⟨r0, n0⟩ := p
    obtain ⟨hn1, hn2⟩ := matchAt_some_inv rest t r0 n0 hm
    have hrestne : rest ≠ [] := by
      intro h; subst h; simp at hn2; omega
    rw [hm] at hskip
    simp only [Option.map_some'] at hskip
    -- one scan step consumes l, the newline and the match inside rest
    have hstep : subnGo t (l ++ '\n' :: rest).length (l ++ '\n' :: rest) true
        = ((l ++ '\n' :: r0)
            ++ (subnGo t (rest.drop n0).length (rest.drop n0) (lastIsNL (rest.take n0))).1,
           (subnGo t (rest.drop n0).length (rest.drop n0) (lastIsNL (rest.take n0))).2 + 1) := by
      have hsh : l ++ '\n' :: rest = (l ++ ['\n']) ++ rest := by simp
      cases hl : l ++ '\n' :: rest with
      | nil => exact absurd (hl ▸ hsh) (by simp)
      | cons c cs =>
        have hlen : (l ++ '\n' :: rest).length = cs.length + 1 := by rw [hl]; rfl
        have hm2 : matchAt (c :: cs) t = some (l ++ '\n' :: r0, l.length + 1 + n0) := by
          rw [← hl]; exact hskip
        rw [show ((c :: cs).length) = cs.length + 1 from rfl,
          subnGo_cons_true_some t c cs cs.length _ _ hm2]
        have hdrop : (c :: cs).drop (l.length + 1 + n0) = rest.drop n0 := by
          rw [← hl, hsh]
          rw [show (l.length + 1 + n0) = (l ++ ['\n']).length + n0 from by simp]
          exact drop_append_len (l ++ ['\n']) rest n0
        have htake : (c :: cs).take (l.length + 1 + n0) = (l ++ ['\n']) ++ rest.take n0 := by
          rw [← hl, hsh]
          rw [show (l.length + 1 + n0) = (l ++ ['\n']).length + n0 from by simp]
          exact take_append_len (l ++ ['\n']) rest n0
        have hlast : lastIsNL ((c :: cs).take (l.length + 1 + n0)) = lastIsNL (rest.take n0) := by
          rw [htake]
          exact lastIsNL_append_right _ _ (take_ne_nil_of rest n0 hn1 hrestne)
        rw [hdrop, hlast]
        rw [subnGo_eq_exact t cs.length (rest.drop n0) (lastIsNL (rest.take n0)) (by
          have : cs.length + 1 = (l ++ '\n' :: rest).length := hlen.symm
          simp only [List.length_append, List.length_cons] at this
          simp only [List.length_drop]
          omega)]
    rw [hstep]
    -- the scan of `rest` alone takes the same step
    have hrstep : subnGo t rest.length rest true
        = (r0 ++ (subnGo t (rest.drop n0).length (rest.drop n0) (lastIsNL (rest.take n0))).1,
           (subnGo t (rest.drop n0).length (rest.drop n0) (lastIsNL (rest.take n0))).2 + 1) := by
      cases hr : rest with
      | nil => exact absurd hr hrestne
      | cons r' rs =>
        rw [show ((r' :: rs).length) = rs.length + 1 from rfl]
        rw [subnGo_cons_true_some t r' rs rs.length r0 n0 (by rw [← hr]; exact hm)]
        rw [← hr]
        rw [subnGo_eq_exact t rs.length (rest.drop n0) (lastIsNL (rest.take n0)) (by
          have : rest.length = rs.length + 1 := by rw [hr]; rfl
          simp only [List.length_drop]
          omega)]
    rw [hrstep]
    simp

theorem subnGo_line_ws_last (t l : List Char)
    (hws : allWS l = true)
    (hnlb : l.all (fun c => c ≠ '\n') = true) :
    subnGo t l.length l true = (l, 0) := by
  have hnl : ∀ c ∈ l, c ≠ '\n' := by
    simpa only [List.all_eq_true, decide_eq_true_eq] using hnlb
  cases l with
  | nil => rw [subnGo_nil_eq]
  | cons c cs =>
    have hm : matchAt (c :: cs) t = none := matchAt_allWS_single t (c :: cs) hws
    have hc : decide (c = '\n') = false :=
      decide_eq_false (hnl c (List.mem_cons_self c cs))
    rw [show ((c :: cs).length) = cs.length + 1 from rfl]
    rw [subnGo_cons_true_none t c cs cs.length hm, hc]
    have := subnGo_walk t cs [] (fun a ha => hnl a (List.mem_cons_of_mem c ha))
    rw [List.append_nil] at this
    rw [this, subnGo_nil_eq]
    simp

theorem lineFlip_none_of_allWS (t l : List Char) (h : allWS l = true) :
    lineFlip t l = none := by
  have hd : l.drop (wsCount l) = [] := by
    rw [wsCount_allWS l h]; simp
  simp only [lineFlip, hd]

theorem lineFlip_none_of_inert (t l : List Char) (h : inertLine t l = true) :
    lineFlip t l = none := by
  obtain ⟨c, s2, e1, hcase⟩ := inertLine_inv t l h
  rcases hcase with hc | ⟨hc, hsub⟩
  · simp only [lineFlip, e1]
    split
    · next s2' heq => injection heq with h1 _; exact absurd h1 hc
    · rfl
  · subst hc
    rcases hsub with ⟨s4, e2, hu1, hu2⟩ | ⟨d, s3, e2, hnopat⟩
    · simp only [lineFlip, e1, e2]
      rw [if_neg hu2]
    · simp only [lineFlip, e1, e2]

/-- The central characterisation: on a ledger whose lines are blank, inert or
unchecked-for-`t`, the `re.subn` scan flips the checkbox of every
unchecked-for-`t` line (and only those), and the substitution count is the
number of such lines. -/
theorem pySubn_lines (t : List Char) (hgt : goodTask t = true) :
    ∀ ls : List (List Char), (∀ l ∈ ls, goodLine t l = true) →
      pySubn (joinNL ls) t
        = (joinNL (ls.map (lineFlipD t)), ls.countP (fun l => (lineFlip t l).isSome)) := by
  intro ls
  induction ls with
  | nil => intro _; rfl
  | cons l ls ih =>
    intro hall
    have hl := hall l (List.mem_cons_self l ls)
    have hrest : ∀ l' ∈ ls, goodLine t l' = true :=
      fun l' h' => hall l' (List.mem_cons_of_mem l h')
    simp only [goodLine, Bool.and_eq_true, Bool.or_eq_true] at hl
    obtain ⟨hnlb, hcase⟩ := hl
    cases ls with
    | nil =>
      rcases hcase with (hws | hin) | hfl
      · show subnGo t (joinNL [l]).length (joinNL [l]) true = _
        rw [show joinNL [l] = l from rfl, subnGo_line_ws_last t l hws hnlb]
        simp [lineFlipD, lineFlip_none_of_allWS t l hws, joinNL]
      · show subnGo t (joinNL [l]).length (joinNL [l]) true = _
        rw [show joinNL [l] = l from rfl, subnGo_line_inert_last t l hgt hnlb hin]
        simp [lineFlipD, lineFlip_none_of_inert t l hin, joinNL]
      · obtain ⟨fl, hfl'⟩ := Option.isSome_iff_exists.mp hfl
        show subnGo t (joinNL [l]).length (joinNL [l]) true = _
        rw [show joinNL [l] = l from rfl, subnGo_line_flip_last t l fl hgt hfl']
        simp [lineFlipD, hfl', joinNL]
    | cons l2 ls2 =>
      have hjoin : joinNL (l :: l2 :: ls2) = l ++ '\n' :: joinNL (l2 :: ls2) := rfl
      have hih := ih hrest
      rcases hcase with (hws | hin) | hfl
      · show subnGo t (joinNL (l :: l2 :: ls2)).length (joinNL (l :: l2 :: ls2)) true = _
        rw [hjoin, subnGo_line_ws t l (joinNL (l2 :: ls2)) hgt hws hnlb]
        rw [show subnGo t (joinNL (l2 :: ls2)).length (joinNL (l2 :: ls2)) true
          = pySubn (joinNL (l2 :: ls2)) t from rfl, hih]
        simp only [List.map_cons, List.countP_cons, lineFlip_none_of_allWS t l hws]
        simp [lineFlipD, lineFlip_none_of_allWS t l hws, joinNL]
      · show subnGo t (joinNL (l :: l2 :: ls2)).length (joinNL (l :: l2 :: ls2)) true = _
        rw [hjoin, subnGo_line_inert t l (joinNL (l2 :: ls2)) hgt hnlb hin]
        rw [show subnGo t (joinNL (l2 :: ls2)).length (joinNL (l2 :: ls2)) true
          = pySubn (joinNL (l2 :: ls2)) t from rfl, hih]
        simp only [List.map_cons, List.countP_cons, lineFlip_none_of_inert t l hin]
        simp [lineFlipD, lineFlip_none_of_inert t l hin, joinNL]
      · obtain ⟨fl, hfl'⟩ := Option.isSome_iff_exists.mp hfl
        show subnGo t (joinNL (l :: l2 :: ls2)).length (joinNL (l :: l2 :: ls2)) true = _
        have hnl : ∀ c ∈ l, c ≠ '\n' := by
          simpa only [List.all_eq_true, decide_eq_true_eq] using hnlb
        rw [hjoin, subnGo_line_flip t l fl (joinNL (l2 :: ls2)) hgt hnl hfl']
        rw [show subnGo t (joinNL (l2 :: ls2)).length (joinNL (l2 :: ls2)) true
          = pySubn (joinNL (l2 :: ls2)) t from rfl, hih]
        simp only [List.map_cons, List.countP_cons, hfl']
        simp [lineFlipD, hfl', joinNL]

theorem take_wsCount_allWS (l : List Char) : allWS (l.take (wsCount l)) = true := by
  induction l with
  | nil => simp [wsCount, allWS]
  | cons c cs ih =>
    by_cases hc : pyWS c
    · simp only [wsCount, hc, if_true]
      rw [show (c :: cs).take (wsCount cs + 1) = c :: cs.take (wsCount cs) from rfl]
      simp only [allWS, List.all_cons, Bool.and_eq_true, hc, true_and]
      exact ih
    · have h0 : wsCount (c :: cs) = 0 := by simp [wsCount, hc]
      rw [h0]
      rfl

theorem lineFlip_chars (t l fl : List Char) (h : lineFlip t l = some fl) :
    ∀ c ∈ fl, c ∈ l ∨ c = 'x' := by
  obtain ⟨s2, s4, e1, e2, e3, e4⟩ := lineFlip_some_inv t l fl h
  intro c hc
  rw [e4] at hc
  simp only [List.mem_append, List.mem_cons] at hc
  rcases hc with h1 | h1 | h1
  · exact Or.inl (List.mem_of_mem_take h1)
  · subst h1
    left
    have : '-' ∈ l.drop (wsCount l) := by rw [e1]; simp
    exact List.mem_of_mem_drop this
  · have hin2 : ∀ a, a ∈ s2 → a ∈ l := by
      intro a ha
      have : a ∈ l.drop (wsCount l) := by rw [e1]; simp [ha]
      exact List.mem_of_mem_drop this
    have hin4 : ∀ a, a ∈ '[' :: ' ' :: ']' :: s4 → a ∈ l := by
      intro a ha
      have : a ∈ s2.drop (wsCount s2) := by rw [e2]; exact ha
      exact hin2 a (List.mem_of_mem_drop this)
    rcases h1 with h2 | h2 | h2 | h2 | h2
    · exact Or.inl (hin2 c (List.mem_of_mem_take h2))
    · exact Or.inl (hin4 c (by simp [h2]))
    · exact Or.inr h2
    · exact Or.inl (hin4 c (by simp [h2]))
    · exact Or.inl (hin4 c (by simp [h2]))

theorem lineFlip_newline_free (t l fl : List Char) (h : lineFlip t l = some fl)
    (hnl : l.all (fun c => c ≠ '\n') = true) :
    fl.all (fun c => c ≠ '\n') = true := by
  simp only [List.all_eq_true, decide_eq_true_eq] at hnl ⊢
  intro c hc
  rcases lineFlip_chars t l fl h c hc with h1 | h1
  · exact hnl c h1
  · subst h1; decide

theorem inertLine_of_flip (t t' l fl : List Char) (h : lineFlip t l = some fl) :
    inertLine t' fl = true := by
  obtain ⟨s2, s4, e1, e2, e3, e4⟩ := lineFlip_some_inv t l fl h
  have hA : allWS (l.take (wsCount l)) = true := take_wsCount_allWS l
  have hB : allWS (s2.take (wsCount s2)) = true := take_wsCount_allWS s2
  have hd1 : fl.drop (wsCount fl)
      = '-' :: (s2.take (wsCount s2) ++ '[' :: 'x' :: ']' :: s4) := by
    rw [e4, wsCount_allWS_append _ _ hA]
    rw [show wsCount ('-' :: (s2.take (wsCount s2) ++ '[' :: 'x' :: ']' :: s4)) = 0 from by
      simp [wsCount, pyWS]]
    rw [Nat.add_zero, List.drop_left]
  have hd2 : (s2.take (wsCount s2) ++ '[' :: 'x' :: ']' :: s4).drop
      (wsCount (s2.take (wsCount s2) ++ '[' :: 'x' :: ']' :: s4))
      = '[' :: 'x' :: ']' :: s4 := by
    rw [wsCount_allWS_append _ _ hB]
    rw [show wsCount ('[' :: 'x' :: ']' :: s4) = 0 from by simp [wsCount, pyWS]]
    rw [Nat.add_zero, List.drop_left]
  simp only [inertLine, hd1, hd2]
  rfl

/-! ## Helper lemmas: splitting, parsing, and `markContent` on good ledgers -/

theorem splitOnNL_single (l : List Char) (h : ∀ c ∈ l, c ≠ '\n') :
    splitOnNL l = [l] := by
  induction l with
  | nil => rfl
  | cons c cs ih =>
    have hc : c ≠ '\n' := h c (List.mem_cons_self c cs)
    simp only [splitOnNL, if_neg hc]
    rw [ih (fun a ha => h a (List.mem_cons_of_mem c ha))]

theorem splitOnNL_append_cons (l rest : List Char) (h : ∀ c ∈ l, c ≠ '\n') :
    splitOnNL (l ++ '\n' :: rest) = l :: splitOnNL rest := by
  induction l with
  | nil => simp [splitOnNL]
  | cons c cs ih =>
    have hc : c ≠ '\n' := h c (List.mem_cons_self c cs)
    simp only [List.cons_append, splitOnNL, if_neg hc]
    rw [show cs.append ('\n' :: rest) = cs ++ '\n' :: rest from rfl,
      ih (fun a ha => h a (List.mem_cons_of_mem c ha))]

theorem splitOnNL_joinNL (ls : List (List Char)) (hne : ls ≠ [])
    (h : ∀ l ∈ ls, ∀ c ∈ l, c ≠ '\n') :
    splitOnNL (joinNL ls) = ls := by
  induction ls with
  | nil => exact absurd rfl hne
  | cons l ls ih =>
    cases ls with
    | nil =>
      rw [show joinNL [l] = l from rfl]
      exact splitOnNL_single l (h l (List.mem_cons_self l []))
    | cons l2 ls2 =>
      rw [show joinNL (l :: l2 :: ls2) = l ++ '\n' :: joinNL (l2 :: ls2) from rfl]
      rw [splitOnNL_append_cons l _ (h l (List.mem_cons_self l _))]
      rw [ih (by simp) (fun l' h' c hc => h l' (List.mem_cons_of_mem l h') c hc)]

theorem enumFrom1_append (n : Nat) (xs ys : List α) :
    enumFrom1 n (xs ++ ys) = enumFrom1 n xs ++ enumFrom1 (n + xs.length) ys := by
  induction xs generalizing n with
  | nil => simp [enumFrom1]
  | cons a as ih =>
    simp only [List.cons_append, enumFrom1, List.length_cons]
    rw [show as.append ys = as ++ ys from rfl, ih (n + 1),
      show n + 1 + as.length = n + (as.length + 1) from by omega]

theorem matchTaskLine_flip (t l fl : List Char)
    (hgt : goodTask t = true) (hfl : lineFlip t l = some fl) :
    matchTaskLine fl = some ('x', t) := by
  obtain ⟨s2, s4, e1, e2, e3, e4⟩ := lineFlip_some_inv t l fl hfl
  obtain ⟨t0, t', ht, -, -⟩ := goodTask_inv t hgt
  have hA : allWS (l.take (wsCount l)) = true := take_wsCount_allWS l
  have hB : allWS (s2.take (wsCount s2)) = true := take_wsCount_allWS s2
  have hd1 : fl.drop (wsCount fl)
      = '-' :: (s2.take (wsCount s2) ++ '[' :: 'x' :: ']' :: s4) := by
    rw [e4, wsCount_allWS_append _ _ hA]
    rw [show wsCount ('-' :: (s2.take (wsCount s2) ++ '[' :: 'x' :: ']' :: s4)) = 0 from by
      simp [wsCount, pyWS]]
    rw [Nat.add_zero, List.drop_left]
  have hd2 : (s2.take (wsCount s2) ++ '[' :: 'x' :: ']' :: s4).drop
      (wsCount (s2.take (wsCount s2) ++ '[' :: 'x' :: ']' :: s4))
      = '[' :: 'x' :: ']' :: s4 := by
    rw [wsCount_allWS_append _ _ hB]
    rw [show wsCount ('[' :: 'x' :: ']' :: s4) = 0 from by simp [wsCount, pyWS]]
    rw [Nat.add_zero, List.drop_left]
  have hlen4 : s4.length = wsCount s4 + t.length := by
    conv_lhs => rw [← List.take_append_drop (wsCount s4) s4]
    rw [e3]
    simp [List.length_take, Nat.min_eq_left (wsCount_le_length s4)]
  have htpos : 1 ≤ t.length := by rw [ht]; simp
  simp only [matchTaskLine, hd1, hd2]
  rw [if_pos (by decide)]
  rw [if_pos (by omega)]
  rw [e3]

/-- `markContent` on a good ledger: every unchecked-for-`t` line is flipped,
the returned boolean is whether at least one such line exists. -/
theorem markContent_lines (t : List Char) (ls : List (List Char))
    (hgt : goodTask t = true) (hall : ∀ l ∈ ls, goodLine t l = true) :
    markContent (joinNL ls) t
      = (joinNL (ls.map (lineFlipD t)),
         decide (0 < ls.countP (fun l => (lineFlip t l).isSome))) := by
  unfold markContent
  rw [pySubn_lines t hgt ls hall]
  by_cases hpos : 0 < ls.countP (fun l => (lineFlip t l).isSome)
  · rw [if_pos hpos, decide_eq_true hpos]
  · rw [if_neg hpos]
    have hz : ls.countP (fun l => (lineFlip t l).isSome) = 0 := by omega
    have hid : ls.map (lineFlipD t) = ls := by
      have hnone : ∀ l ∈ ls, (lineFlip t l).isSome = false := by
        intro l hl
        have := List.countP_eq_zero.mp hz l hl
        simpa using this
      calc ls.map (lineFlipD t) = ls.map id := by
            apply List.map_congr_left
            intro l hl
            simp only [lineFlipD, id]
            rcases ho : lineFlip t l with _ | fl
            · rfl
            · have hfalse := hnone l hl
              rw [ho] at hfalse
              simp at hfalse
        _ = ls := List.map_id ls
    rw [hid, decide_eq_false hpos]

theorem goodLine_flipD (t l : List Char) (hgt : goodTask t = true)
    (hl : goodLine t l = true) :
    goodLine t (lineFlipD t l) = true ∧ lineFlip t (lineFlipD t l) = none := by
  have hl' := hl
  simp only [goodLine, Bool.and_eq_true, Bool.or_eq_true] at hl'
  obtain ⟨hnlb, hcase⟩ := hl'
  rcases hcase with (hws | hin) | hfl
  · rw [show lineFlipD t l = l from by simp [lineFlipD, lineFlip_none_of_allWS t l hws]]
    exact ⟨hl, lineFlip_none_of_allWS t l hws⟩
  · rw [show lineFlipD t l = l from by simp [lineFlipD, lineFlip_none_of_inert t l hin]]
    exact ⟨hl, lineFlip_none_of_inert t l hin⟩
  · obtain ⟨fl, hfl'⟩ := Option.isSome_iff_exists.mp hfl
    rw [show lineFlipD t l = fl from by simp [lineFlipD, hfl']]
    have hinert := inertLine_of_flip t t l fl hfl'
    refine ⟨?_, lineFlip_none_of_inert t fl hinert⟩
    simp only [goodLine, Bool.and_eq_true, Bool.or_eq_true]
    exact ⟨lineFlip_newline_free t l fl hfl' hnlb, Or.inl (Or.inr hinert)⟩

theorem enumFrom1_map_fst (n : Nat) (xs : List α) :
    (enumFrom1 n xs).map Prod.fst = List.range' n xs.length := by
  induction xs generalizing n with
  | nil => simp [enumFrom1]
  | cons a as ih => simp [enumFrom1, List.range'_succ, ih (n + 1)]

theorem enumFrom1_map_snd (n : Nat) (xs : List α) :
    (enumFrom1 n xs).map Prod.snd = xs := by
  induction xs generalizing n with
  | nil => simp [enumFrom1]
  | cons a as ih => simp [enumFrom1, ih (n + 1)]

theorem enumFrom1_length (n : Nat) (xs : List α) :
    (enumFrom1 n xs).length = xs.length := by
  induction xs generalizing n with
  | nil => simp [enumFrom1]
  | cons a as ih => simp [enumFrom1, ih (n + 1)]

/-! ## Claim theorems -/

/-- C1 counterexample: on a ledger with two identical unchecked lines `- [ ] a`,
`mark_task_complete` with task text `a` rewrites *both* lines (the `re.subn`
call has no count limit), so the second identical unchecked line is *not*
left untouched as the claim states. -/
theorem c1_counterexample :
    markContent (str "- [ ] a\n- [ ] a") (str "a") = (str "- [x] a\n- [x] a", true) ∧
    (markContent (str "- [ ] a\n- [ ] a") (str "a")).1 ≠ str "- [x] a\n- [ ] a" := by
  decide

/-- C1 (amended): on a ledger of blank, inert (non-matching) and
unchecked-for-`t` lines, `mark_task_complete` replaces **every** line whose
checkbox is `[ ]` and whose trailing content exactly equals `t` (not only the
first), leaves every other line byte-for-byte unchanged, and returns true
exactly when at least one replacement occurred. -/
theorem c1_mark_replaces_every_match (t : List Char) (ls : List (List Char))
    (hgt : goodTask t = true) (hall : ∀ l ∈ ls, goodLine t l = true) :
    markContent (joinNL ls) t
      = (joinNL (ls.map (lineFlipD t)),
         decide (0 < ls.countP (fun l => (lineFlip t l).isSome))) :=
  markContent_lines t ls hgt hall

/-- C1 witness: the amended theorem applied to the duplicate-task ledger. -/
theorem c1_witness :
    goodTask (str "a") = true ∧
    markContent (str "- [ ] a\n- [ ] a") (str "a") = (str "- [x] a\n- [x] a", true) := by
  refine ⟨by decide, ?_⟩
  have h := c1_mark_replaces_every_match (str "a") [str "- [ ] a", str "- [ ] a"]
    (by decide) (by decide)
  calc markContent (str "- [ ] a\n- [ ] a") (str "a")
      = markContent (joinNL [str "- [ ] a", str "- [ ] a"]) (str "a") := by
        rw [show joinNL [str "- [ ] a", str "- [ ] a"] = str "- [ ] a\n- [ ] a" from by decide]
    _ = (str "- [x] a\n- [x] a", true) := by rw [h]; decide

/-- C2 counterexample: a lane whose `HANDOFF.md` exists with only 10 bytes is
counted as resolved by the wait predicate, but the classifier returns
`timeout` on the same snapshot, so the wait predicate does not agree with the
classifier. -/
theorem c2_counterexample :
    ¬(isWorkerComplete ⟨some 10, none⟩ = true ↔
        (analyzeWorker ⟨some 10, none⟩ = WStatus.complete ∨
         analyzeWorker ⟨some 10, none⟩ = WStatus.failed)) := by
  decide

/-- C2 (amended): during `wait_for_workers` a lane counts as resolved iff its
handoff artifact exists, with no size or log condition; hence every
classifier-`complete` lane counts as resolved, but a ≤ 50-byte handoff counts
as resolved while classifying `timeout`, and an error-logged lane without a
handoff classifies `failed` yet never counts as resolved. -/
theorem c2_wait_checks_handoff_existence_only :
    (∀ d : WorkerDir, isWorkerComplete d = true ↔ d.handoff.isSome = true) ∧
    (∀ d : WorkerDir, analyzeWorker d = WStatus.complete → isWorkerComplete d = true) ∧
    (isWorkerComplete ⟨some 10, none⟩ = true ∧
     analyzeWorker ⟨some 10, none⟩ = WStatus.timeout) ∧
    (isWorkerComplete ⟨none, some (str "error: build failed")⟩ = false ∧
     analyzeWorker ⟨none, some (str "error: build failed")⟩ = WStatus.failed) := by
  refine ⟨fun d => Iff.rfl, ?_, by decide, by decide⟩
  intro d h
  obtain ⟨handoff, logContent⟩ := d
  cases handoff with
  | some sz => simp [isWorkerComplete]
  | none =>
    exfalso
    unfold analyzeWorker at h
    cases logContent with
    | none => simp at h
    | some lc =>
      by_cases hce : containsSub (str "error") (lc.map Char.toLower) = true <;>
        by_cases hcf : containsSub (str "failed") (lc.map Char.toLower) = true <;>
        simp [hce, hcf] at h

/-- C2 witness: the amended theorem's implication at a 51-byte handoff. -/
theorem c2_witness : isWorkerComplete ⟨some 51, none⟩ = true :=
  c2_wait_checks_handoff_existence_only.2.1 ⟨some 51, none⟩ (by decide)

/-- C3: the classifier returns exactly one of the three statuses by the
ordered first-match rule: `complete` iff the handoff exists with size
strictly above 50 bytes; otherwise `failed` iff a log exists whose lowered
content contains `error` or `failed`; otherwise `timeout`.  In particular a
49-byte handoff with no log is `timeout`, a directory with a 51-byte handoff
and an error log is `complete`, and an empty directory is `timeout`. -/
theorem c3_classifier_first_match :
    (∀ d : WorkerDir, analyzeWorker d = WStatus.complete ↔
        (∃ sz, d.handoff = some sz ∧ 50 < sz)) ∧
    (∀ d : WorkerDir, analyzeWorker d = WStatus.failed ↔
        (¬(∃ sz, d.handoff = some sz ∧ 50 < sz) ∧
         ∃ lc, d.logContent = some lc ∧
           (containsSub (str "error") (lc.map Char.toLower) = true ∨
            containsSub (str "failed") (lc.map Char.toLower) = true))) ∧
    (∀ d : WorkerDir, analyzeWorker d = WStatus.timeout ↔
        (¬(∃ sz, d.handoff = some sz ∧ 50 < sz) ∧
         ¬(∃ lc, d.logContent = some lc ∧
             (containsSub (str "error") (lc.map Char.toLower) = true ∨
              containsSub (str "failed") (lc.map Char.toLower) = true)))) ∧
    analyzeWorker ⟨some 49, none⟩ = WStatus.timeout ∧
    analyzeWorker ⟨some 51, some (str "error")⟩ = WStatus.complete ∧
    analyzeWorker ⟨none, none⟩ = WStatus.timeout := by
  refine ⟨?_, ?_, ?_, by decide, by decide, by decide⟩
  · intro d
    obtain ⟨handoff, logContent⟩ := d
    unfold analyzeWorker
    cases handoff with
    | none =>
      cases logContent with
      | none => simp
      | some lc =>
        by_cases hce : containsSub (str "error") (lc.map Char.toLower) = true <;>
          by_cases hcf : containsSub (str "failed") (lc.map Char.toLower) = true <;>
          simp [hce, hcf]
    | some sz =>
      by_cases hsz : 50 < sz
      · simp [hsz]
      · cases logContent with
        | none => simp [hsz]
        | some lc =>
          by_cases hce : containsSub (str "error") (lc.map Char.toLower) = true <;>
            by_cases hcf : containsSub (str "failed") (lc.map Char.toLower) = true <;>
            simp [hsz, hce, hcf]
  · intro d
    obtain ⟨handoff, logContent⟩ := d
    unfold analyzeWorker
    cases handoff with
    | none =>
      cases logContent with
      | none => simp
      | some lc =>
        by_cases hce : containsSub (str "error") (lc.map Char.toLower) = true <;>
          by_cases hcf : containsSub (str "failed") (lc.map Char.toLower) = true <;>
          simp [hce, hcf]
    | some sz =>
      by_cases hsz : 50 < sz
      · simp [hsz]
      · cases logContent with
        | none => simp [hsz]
        | some lc =>
          by_cases hce : containsSub (str "error") (lc.map Char.toLower) = true <;>
            by_cases hcf : containsSub (str "failed") (lc.map Char.toLower) = true <;>
            simp [hsz, hce, hcf]
  · intro d
    obtain ⟨handoff, logContent⟩ := d
    unfold analyzeWorker
    cases handoff with
    | none =>
      cases logContent with
      | none => simp
      | some lc =>
        by_cases hce : containsSub (str "error") (lc.map Char.toLower) = true <;>
          by_cases hcf : containsSub (str "failed") (lc.map Char.toLower) = true <;>
          simp [hce, hcf]
    | some sz =>
      by_cases hsz : 50 < sz
      · simp [hsz]
      · cases logContent with
        | none => simp [hsz]
        | some lc =>
          by_cases hce : containsSub (str "error") (lc.map Char.toLower) = true <;>
            by_cases hcf : containsSub (str "failed") (lc.map Char.toLower) = true <;>
            simp [hsz, hce, hcf]

/-- C4: each round that runs assigns exactly `min(numLanes, pending)` lanes,
numbered `1..min(numLanes, pending)`, carrying the first
`min(numLanes, pending)` incomplete tasks in ledger order; and when no
incomplete task is pending the round does not occur and the EXECUTE loop
stops (the success exit). -/
theorem c4_lane_assignment_bound (k : Nat) (ledger : Nat → List Char) (fuel n : Nat) :
    (get_incomplete_tasks (ledger n) = [] → execTrace k ledger fuel n = []) ∧
    (∀ ev ∈ execTrace k ledger fuel n,
      ev.2.length = min k (get_incomplete_tasks (ledger ev.1)).length ∧
      ev.2.map Prod.fst
        = List.range' 1 (min k (get_incomplete_tasks (ledger ev.1)).length) ∧
      ev.2.map Prod.snd = (get_incomplete_tasks (ledger ev.1)).take k) := by
  constructor
  · intro hempty
    cases fuel with
    | zero => rfl
    | succ f => simp [execTrace, hempty]
  · induction fuel generalizing n with
    | zero => intro ev hev; simp [execTrace] at hev
    | succ f ih =>
      intro ev hev
      simp only [execTrace] at hev
      split at hev
      · simp at hev
      · rcases List.mem_cons.mp hev with rfl | htail
        · refine ⟨?_, ?_, ?_⟩
          · simp only [roundAssignments]
            rw [enumFrom1_length]
            simp [Nat.min_comm]
          · simp only [roundAssignments]
            rw [enumFrom1_map_fst]
            simp [Nat.min_comm]
          · simp only [roundAssignments]
            rw [enumFrom1_map_snd]
        · exact ih (n + 1) ev htail

/-- C4 witness: with 2 lanes and 3 pending tasks, round 1 assigns exactly
2 lanes carrying the first two tasks in ledger order. -/
theorem c4_witness :
    ((1, roundAssignments 2 (str "- [ ] a\n- [ ] b\n- [ ] c"))
        ∈ execTrace 2 (fun _ => str "- [ ] a\n- [ ] b\n- [ ] c") 1 1) ∧
    ((1, roundAssignments 2 (str "- [ ] a\n- [ ] b\n- [ ] c")).2.length
        = min 2 (get_incomplete_tasks (str "- [ ] a\n- [ ] b\n- [ ] c")).length ∧
      (1, roundAssignments 2 (str "- [ ] a\n- [ ] b\n- [ ] c")).2.map Prod.fst
        = List.range' 1 (min 2 (get_incomplete_tasks (str "- [ ] a\n- [ ] b\n- [ ] c")).length) ∧
      (1, roundAssignments 2 (str "- [ ] a\n- [ ] b\n- [ ] c")).2.map Prod.snd
        = (get_incomplete_tasks (str "- [ ] a\n- [ ] b\n- [ ] c")).take 2) :=
  ⟨by decide,
   (c4_lane_assignment_bound 2 (fun _ => str "- [ ] a\n- [ ] b\n- [ ] c") 1 1).2
     _ (by decide)⟩

/-- C5: the three pattern rules fire independently with the stated
thresholds and severities (`high_failure_rate` iff workers exist and the
failure ratio strictly exceeds 30%, `tasks_not_marked` iff no task counted
complete while some worker completed, `shallow_work` iff more than two
completions in under two minutes); with 10 workers and 2+2 failures the
high-failure pattern fires, with 1+1 it does not; and improvements map 1:1
to patterns with priority `P0` exactly for severity `high`. -/
theorem c5_pattern_rules :
    (∀ m : Metrics,
      (⟨PType.high_failure_rate, Severity.high⟩ : Pattern) ∈ detectPatterns m ↔
        (0 < m.total_workers ∧ 3 * m.total_workers < 10 * (m.failed + m.timeout))) ∧
    (∀ m : Metrics,
      (⟨PType.tasks_not_marked, Severity.medium⟩ : Pattern) ∈ detectPatterns m ↔
        (m.tasks_completed.getD 0 = 0 ∧ 0 < m.completed)) ∧
    (∀ m : Metrics,
      (⟨PType.shallow_work, Severity.medium⟩ : Pattern) ∈ detectPatterns m ↔
        (2 < m.completed ∧ m.duration_minutes < 2)) ∧
    (⟨PType.high_failure_rate, Severity.high⟩ : Pattern)
        ∈ detectPatterns ⟨10, 6, 2, 2, some 5, 60⟩ ∧
    (⟨PType.high_failure_rate, Severity.high⟩ : Pattern)
        ∉ detectPatterns ⟨10, 8, 1, 1, some 5, 60⟩ ∧
    (∀ ps : List Pattern, generateImprovements ps
        = ps.map fun p => ⟨if p.severity = Severity.high then Priority.P0 else Priority.P1⟩) := by
  refine ⟨?_, ?_, ?_, ?_, ?_, fun ps => rfl⟩
  · intro m
    simp only [detectPatterns, List.mem_append]
    constructor
    · intro h
      rcases h with (h | h) | h
      · split at h
        · next hc => exact hc
        · simp at h
      · split at h <;> simp_all
      · split at h <;> simp_all
    · intro h
      left; left
      rw [if_pos h]
      simp
  · intro m
    simp only [detectPatterns, List.mem_append]
    constructor
    · intro h
      rcases h with (h | h) | h
      · split at h <;> simp_all
      · split at h
        · next hc => exact hc
        · simp at h
      · split at h <;> simp_all
    · intro h
      left; right
      rw [if_pos h]
      simp
  · intro m
    simp only [detectPatterns, List.mem_append]
    constructor
    · intro h
      rcases h with (h | h) | h
      · split at h <;> simp_all
      · split at h <;> simp_all
      · split at h
        · next hc => exact hc
        · simp at h
    · intro h
      right
      rw [if_pos h]
      simp
  · simp [detectPatterns]
  · simp [detectPatterns]

/-- C6 counterexample: the text `- [ ] a ` (trailing space) contains a unique
unchecked line whose parsed task text is exactly `a`, yet `mark_task_complete`
with `a` matches nothing (its pattern requires the line to end exactly with
the task text, while the parser strips whitespace), so the round-trip yields
the task still uncompleted. -/
theorem c6_counterexample :
    parse_tasks (str "- [ ] a ") = [⟨str "a", false, 1⟩] ∧
    markContent (str "- [ ] a ") (str "a") = (str "- [ ] a ", false) ∧
    parse_tasks ((markContent (str "- [ ] a ") (str "a")).1) = [⟨str "a", false, 1⟩] := by
  decide

/-- C6 (amended): for a ledger of blank, inert and checkbox lines containing
a unique unchecked line whose content after the checkbox is literally `t`
(no trailing whitespace; `t` a plain stripped task text), marking `t`
rewrites exactly that line to its `[x]` form, leaves every other line
byte-for-byte unchanged, and parsing the result contains the task `t` as
completed at that line's position. -/
theorem c6_round_trip (t fl l : List Char) (pre post : List (List Char))
    (hgt : goodTask t = true) (hstrip : stripChars t = t)
    (hpre : ∀ l' ∈ pre, goodLine t l' = true ∧ lineFlip t l' = none)
    (hpost : ∀ l' ∈ post, goodLine t l' = true ∧ lineFlip t l' = none)
    (hfl : lineFlip t l = some fl) (hnl : l.all (fun c => c ≠ '\n') = true) :
    markContent (joinNL (pre ++ l :: post)) t = (joinNL (pre ++ fl :: post), true) ∧
    (⟨t, true, pre.length + 1⟩ : TaskEntry) ∈ parse_tasks (joinNL (pre ++ fl :: post)) := by
  have hgood_l : goodLine t l = true := by
    simp only [goodLine, Bool.and_eq_true, Bool.or_eq_true]
    exact ⟨hnl, Or.inr (by simp [hfl])⟩
  have hall : ∀ l' ∈ pre ++ l :: post, goodLine t l' = true := by
    intro l' hl'
    rcases List.mem_append.mp hl' with h | h
    · exact (hpre l' h).1
    · rcases List.mem_cons.mp h with rfl | h
      · exact hgood_l
      · exact (hpost l' h).1
  constructor
  · rw [markContent_lines t (pre ++ l :: post) hgt hall]
    have hmap : (pre ++ l :: post).map (lineFlipD t) = pre ++ fl :: post := by
      rw [List.map_append, List.map_cons]
      congr 1
      · apply List.map_congr_left ?_ |>.trans (List.map_id pre)
        intro l' hl'
        simp [lineFlipD, (hpre l' hl').2]
      · congr 1
        · simp [lineFlipD, hfl]
        · apply List.map_congr_left ?_ |>.trans (List.map_id post)
          intro l' hl'
          simp [lineFlipD, (hpost l' hl').2]
    have hcnt : 0 < (pre ++ l :: post).countP (fun l' => (lineFlip t l').isSome) := by
      rw [List.countP_append, List.countP_cons]
      simp [hfl]
    rw [hmap, decide_eq_true hcnt]
  · have hnlfl : fl.all (fun c => c ≠ '\n') = true := lineFlip_newline_free t l fl hfl hnl
    have hlines : ∀ l' ∈ pre ++ fl :: post, ∀ c ∈ l', c ≠ '\n' := by
      intro l' hl'
      have hgood : l'.all (fun c => c ≠ '\n') = true := by
        rcases List.mem_append.mp hl' with h | h
        · have := (hpre l' h).1
          simp only [goodLine, Bool.and_eq_true] at this
          exact this.1
        · rcases List.mem_cons.mp h with rfl | h
          · exact hnlfl
          · have := (hpost l' h).1
            simp only [goodLine, Bool.and_eq_true] at this
            exact this.1
      simpa only [List.all_eq_true, decide_eq_true_eq] using hgood
    unfold parse_tasks
    rw [splitOnNL_joinNL (pre ++ fl :: post) (by simp) hlines]
    apply List.mem_filterMap.mpr
    refine ⟨(pre.length + 1, fl), ?_, ?_⟩
    · rw [enumFrom1_append 1 pre (fl :: post)]
      apply List.mem_append_right
      rw [show 1 + pre.length = pre.length + 1 from by omega]
      simp [enumFrom1]
    · rw [matchTaskLine_flip t l fl hgt hfl]
      simp [hstrip]

/-- C6 witness: the amended round-trip on a four-line ledger with a header,
a blank line, the unique unchecked task `a` and a completed task. -/
theorem c6_witness :
    markContent (joinNL ([str "# Tasks", str ""] ++ str "- [ ] a" :: [str "- [x] b"]))
        (str "a")
      = (joinNL ([str "# Tasks", str ""] ++ str "- [x] a" :: [str "- [x] b"]), true) ∧
    (⟨str "a", true, [str "# Tasks", str ""].length + 1⟩ : TaskEntry)
      ∈ parse_tasks (joinNL ([str "# Tasks", str ""] ++ str "- [x] a" :: [str "- [x] b"])) :=
  c6_round_trip (str "a") (str "- [x] a") (str "- [ ] a")
    [str "# Tasks", str ""] [str "- [x] b"]
    (by decide) (by decide) (by decide) (by decide) (by decide) (by decide)

/-- C7 counterexample: with the task text `z\n- [ ] z` (which embeds a
newline and a checkbox), a first `mark_task_complete` succeeds, yet a second
call with the same text succeeds again and changes the content —
idempotence fails for task texts that span lines. -/
theorem c7_counterexample :
    markContent (str "- [ ] z\n- [ ] z\n- [ ] z") (str "z\n- [ ] z")
      = (str "- [x] z\n- [ ] z\n- [ ] z", true) ∧
    markContent (str "- [x] z\n- [ ] z\n- [ ] z") (str "z\n- [ ] z")
      = (str "- [x] z\n- [x] z\n- [ ] z", true) := by
  decide

/-- C7 (amended): for a plain single-line task text (nonempty, newline-free,
not starting with whitespace) and a ledger of blank, inert and checkbox
lines, a second `mark_task_complete` call after any first call returns false
and leaves the ledger content unchanged. -/
theorem c7_idempotence (t : List Char) (ls : List (List Char))
    (hgt : goodTask t = true) (hall : ∀ l ∈ ls, goodLine t l = true) :
    markContent (markContent (joinNL ls) t).1 t
      = ((markContent (joinNL ls) t).1, false) := by
  have h1 := markContent_lines t ls hgt hall
  have e1 : (markContent (joinNL ls) t).1 = joinNL (ls.map (lineFlipD t)) := by
    rw [h1]
  have hall2 : ∀ l' ∈ ls.map (lineFlipD t), goodLine t l' = true := by
    intro l' hl'
    obtain ⟨l, hl, rfl⟩ := List.mem_map.mp hl'
    exact (goodLine_flipD t l hgt (hall l hl)).1
  have h2 := markContent_lines t (ls.map (lineFlipD t)) hgt hall2
  have hz : (ls.map (lineFlipD t)).countP (fun l => (lineFlip t l).isSome) = 0 := by
    apply List.countP_eq_zero.mpr
    intro l' hl'
    obtain ⟨l, hl, rfl⟩ := List.mem_map.mp hl'
    simp [(goodLine_flipD t l hgt (hall l hl)).2]
  have hid : (ls.map (lineFlipD t)).map (lineFlipD t) = ls.map (lineFlipD t) := by
    refine (List.map_congr_left ?_).trans (List.map_id _)
    intro l' hl'
    have hn := List.countP_eq_zero.mp hz l' hl'
    simp only [Bool.not_eq_true] at hn
    cases ho : lineFlip t l' with
    | none => simp [lineFlipD, ho]
    | some fl => rw [ho] at hn; simp at hn
  rw [e1, h2, hz, hid]
  simp

/-- C7 witness: the amended idempotence on a three-line ledger. -/
theorem c7_witness :
    markContent (markContent (joinNL [str "- [ ] a", str "", str "- [x] b"]) (str "a")).1
        (str "a")
      = ((markContent (joinNL [str "- [ ] a", str "", str "- [x] b"]) (str "a")).1, false) :=
  c7_idempotence (str "a") [str "- [ ] a", str "", str "- [x] b"] (by decide) (by decide)

/-- C8: when validation fails and re-validation after the setup worker still
fails, `run_continuous` returns early: the trace is just the setup event, no
EXECUTE round occurs and ANALYZE does not run; in every other case ANALYZE
occurs exactly once, as the last event after the EXECUTE loop ends. -/
theorem c8_setup_abort_terminal (p0 p1 : Project) (k mr : Nat)
    (ledger : Nat → List Char) :
    (validateReady p0 = false → validateReady p1 = false →
      runContinuousTrace p0 p1 k mr ledger = [Ev.setup] ∧
      (∀ n, Ev.round n ∉ runContinuousTrace p0 p1 k mr ledger) ∧
      Ev.analyze ∉ runContinuousTrace p0 p1 k mr ledger) ∧
    ((validateReady p0 = true ∨ validateReady p1 = true) →
      (runContinuousTrace p0 p1 k mr ledger).count Ev.analyze = 1 ∧
      (runContinuousTrace p0 p1 k mr ledger).getLast? = some Ev.analyze) := by
  have hnotmem : Ev.analyze ∉ (execTrace k ledger mr 1).map (fun r => Ev.round r.1) := by
    intro hmem
    obtain ⟨r, -, habs⟩ := List.mem_map.mp hmem
    cases habs
  constructor
  · intro h0 h1
    unfold runContinuousTrace
    rw [if_neg (by simp [h0]), if_neg (by simp [h1])]
    exact ⟨rfl, by simp, by simp⟩
  · intro hready
    have hbody : ∀ tr : List Ev,
        tr = (execTrace k ledger mr 1).map (fun r => Ev.round r.1) ++ [Ev.analyze] →
        tr.count Ev.analyze = 1 ∧ tr.getLast? = some Ev.analyze := by
      intro tr htr
      subst htr
      constructor
      · rw [List.count_append]
        rw [List.count_eq_zero.mpr hnotmem]
        rfl
      · exact List.getLast?_concat _
    unfold runContinuousTrace
    by_cases h0 : validateReady p0
    · rw [if_pos h0]
      exact hbody _ rfl
    · have h1 : validateReady p1 = true := by
        rcases hready with h | h
        · exact absurd h h0
        · exact h
      rw [if_neg h0, if_pos h1]
      constructor
      · rw [List.count_cons, List.count_append,
          List.count_eq_zero.mpr hnotmem]
        simp
      · rw [show (Ev.setup :: ((execTrace k ledger mr 1).map (fun r => Ev.round r.1)
            ++ [Ev.analyze]))
          = (Ev.setup :: (execTrace k ledger mr 1).map (fun r => Ev.round r.1))
            ++ [Ev.analyze] from by simp]
        exact List.getLast?_concat _

/-- C8 witness: a ready project runs the loop and analyzes exactly once, at
the end of the trace. -/
theorem c8_witness :
    (runContinuousTrace ⟨true, some (str "- [ ] a")⟩ ⟨false, none⟩ 1 0
        (fun _ => str "- [ ] a")).count Ev.analyze = 1 ∧
    (runContinuousTrace ⟨true, some (str "- [ ] a")⟩ ⟨false, none⟩ 1 0
        (fun _ => str "- [ ] a")).getLast? = some Ev.analyze :=
  (c8_setup_abort_terminal ⟨true, some (str "- [ ] a")⟩ ⟨false, none⟩ 1 0
    (fun _ => str "- [ ] a")).2 (Or.inl (by decide))

/-- C9: `count_tasks` counts literal substrings `- [x]`/`- [X]` and `- [ ]`
independently of line structure, and it disagrees with `parse_tasks`: a
checkbox line with doubled spacing between `-` and `[` is a pending task for
the parser but not for the counter, while a mid-line checkbox substring is
counted but not parsed. -/
theorem c9_count_literal_substrings :
    (∀ c : List Char, count_tasks c
        = (pyCount (str "- [x]") c + pyCount (str "- [X]") c,
           pyCount (str "- [ ]") c)) ∧
    count_tasks (str "-  [ ] a") = (0, 0) ∧
    parse_tasks (str "-  [ ] a") = [⟨str "a", false, 1⟩] ∧
    count_tasks (str "x - [ ] b") = (0, 1) ∧
    parse_tasks (str "x - [ ] b") = [] :=
  ⟨fun _ => rfl, by decide, by decide, by decide, by decide⟩

/-- C10: `mark_task_complete` writes the ledger file only on a call that
returns true: whenever it returns false (missing file or no matching
unchecked line) the file state is unchanged, and any change implies the call
returned true. -/
theorem c10_failure_atomicity (st : Option (List Char)) (t : List Char) :
    ((mark_task_complete_file st t).2 = false → (mark_task_complete_file st t).1 = st) ∧
    ((mark_task_complete_file st t).1 ≠ st → (mark_task_complete_file st t).2 = true) := by
  cases st with
  | none => simp [mark_task_complete_file]
  | some content =>
    simp only [mark_task_complete_file, markContent]
    by_cases h : 0 < (pySubn content t).2
    · rw [if_pos h]
      constructor
      · intro hfalse
        simp at hfalse
      · intro _
        rfl
    · rw [if_neg h]
      constructor
      · intro _
        rfl
      · intro hchanged
        exact absurd rfl hchanged

/-- C10 witness: a call on an existing ledger with an unmatched task text
returns false and leaves the file state unchanged. -/
theorem c10_witness :
    (mark_task_complete_file (some (str "- [ ] a")) (str "b")).2 = false ∧
    (mark_task_complete_file (some (str "- [ ] a")) (str "b")).1
      = some (str "- [ ] a") :=
  ⟨by decide, (c10_failure_atomicity (some (str "- [ ] a")) (str "b")).1 (by decide)⟩

/-- C3 witness: the classifier's `complete` characterisation at a 51-byte
handoff. -/
theorem c3_witness : analyzeWorker ⟨some 51, none⟩ = WStatus.complete :=
  (c3_classifier_first_match.1 ⟨some 51, none⟩).mpr ⟨51, rfl, by omega⟩

/-- C5 witness: the high-failure-rate rule at 10 workers with 2 failed and
2 timed out. -/
theorem c5_witness :
    (⟨PType.high_failure_rate, Severity.high⟩ : Pattern)
      ∈ detectPatterns ⟨10, 6, 2, 2, some 5, 60⟩ :=
  (c5_pattern_rules.1 ⟨10, 6, 2, 2, some 5, 60⟩).mpr ⟨by norm_num, by norm_num⟩

/-- C9 witness: the substring-count equation at a concrete ledger text. -/
theorem c9_witness :
    count_tasks (str "- [x] a\n- [ ] b")
      = (pyCount (str "- [x]") (str "- [x] a\n- [ ] b")
          + pyCount (str "- [X]") (str "- [x] a\n- [ ] b"),
         pyCount (str "- [ ]") (str "- [x] a\n- [ ] b")) :=
  c9_count_literal_substrings.1 (str "- [x] a\n- [ ] b")
